import Mathlib

/-!
Verification of the brig stream pipeline: the fixed-capacity chunk buffer
(catfs/mio/chunkbuf), the chunked encryption writer (catfs/mio/encrypt)
and the seekable decompression reader (catfs/mio/compress).

Byte streams are modelled as lists of naturals (each element a byte value),
Go int64 values as Int, Go uint64 values as Nat with explicit mod 2^64
where the code truncates.  Fallible operations return Except or carry an
Option Err channel next to their result, mirroring the (value, error)
return pairs of the Go source.  Loops of the source are modelled with an
explicit fuel argument; every theorem below runs with a fuel that is large
enough for the execution it describes.
-/

namespace Brig

/-- Error values of the embedded code.  Each constructor stands for one
distinct Go error value flowing through the modelled functions: io.EOF,
io.ErrUnexpectedEOF, compress.ErrBadIndex, the header and algorithm
failures of the compress package, encrypt.ErrMixedMethods,
encrypt.ErrBadBlockSize, a runtime panic (out of range index), a failed
underlying seek, a decode failure, and fuel exhaustion (which never
occurs in the executions the theorems describe). -/
inductive Err where
  | eof
  | unexpectedEOF
  | badIndex
  | badHeader
  | unknownAlgorithm
  | panic
  | negativeSeek
  | decodeFailed
  | mixedMethods
  | badBlockSize
  | fuelExhausted
deriving DecidableEq

/-- Seek whence values of package io: SeekStart, SeekCurrent, SeekEnd. -/
inductive Whence where
  | start
  | current
  | seekEnd
deriving DecidableEq

/-- Big endian encoding of a u64 (binary.BigEndian.PutUint64). -/
def putU64BE (n : Nat) : List Nat :=
  [n / 2 ^ 56 % 256, n / 2 ^ 48 % 256, n / 2 ^ 40 % 256, n / 2 ^ 32 % 256,
   n / 2 ^ 24 % 256, n / 2 ^ 16 % 256, n / 2 ^ 8 % 256, n % 256]

/-- Big endian decoding of a u64 (binary.BigEndian.Uint64) from the first
eight bytes of a buffer. -/
def getU64BE : List Nat → Nat
  | b0 :: b1 :: b2 :: b3 :: b4 :: b5 :: b6 :: b7 :: _ =>
    b0 * 2 ^ 56 + b1 * 2 ^ 48 + b2 * 2 ^ 40 + b3 * 2 ^ 32 +
    b4 * 2 ^ 24 + b5 * 2 ^ 16 + b6 * 2 ^ 8 + b7
  | _ => 0

/-- Little endian encoding of a u64 (binary.LittleEndian.PutUint64). -/
def putU64LE (n : Nat) : List Nat :=
  [n % 256, n / 2 ^ 8 % 256, n / 2 ^ 16 % 256, n / 2 ^ 24 % 256,
   n / 2 ^ 32 % 256, n / 2 ^ 40 % 256, n / 2 ^ 48 % 256, n / 2 ^ 56 % 256]

/-- Big endian encoding of a u16. -/
def putU16BE (n : Nat) : List Nat := [n / 2 ^ 8 % 256, n % 256]

/-- Big endian encoding of a u32. -/
def putU32BE (n : Nat) : List Nat :=
  [n / 2 ^ 24 % 256, n / 2 ^ 16 % 256, n / 2 ^ 8 % 256, n % 256]

/-- Conversion of a u64 value to the int64 obtained by reinterpreting its
bits, as in the Go expression int64(u). -/
def toInt64 (u : Nat) : Int :=
  if u < 2 ^ 63 then (u : Int) else (u : Int) - 2 ^ 64

/-! ## Chunk buffer (catfs/mio/chunkbuf, src/unnamed/part_005)

The ChunkBuffer struct and its methods.  Go slice expressions
buf[lo:hi] panic when the bounds are out of range; the methods that
slice therefore return Option, none standing for the runtime panic. -/

/-- ChunkBuffer: fixed capacity buffer with Read, Write and Seek.
Fields as in the source: buf, readOff, writeOff, size. -/
structure ChunkBuffer where
  buf : List Nat
  readOff : Int
  writeOff : Int
  size : Int
deriving DecidableEq

/-- maxChunkSize of package chunkbuf. -/
def maxChunkSize : Nat := 64 * 1024

/-- NewChunkBuffer with non-nil data: buf := data, size := len(data),
offsets zero. -/
def NewChunkBuffer (data : List Nat) : ChunkBuffer :=
  { buf := data, readOff := 0, writeOff := 0, size := (data.length : Int) }

namespace ChunkBuffer

/-- ChunkBuffer.Write: n := copy(c.buf[c.writeOff:c.size], p);
c.writeOff += n; c.size = Max64(c.size, c.writeOff).  Returns the byte
count (the Go error result is always nil); none models the slice panic
when writeOff or size are out of range. -/
def write (c : ChunkBuffer) (p : List Nat) : Option (Nat × ChunkBuffer) :=
  if 0 ≤ c.writeOff ∧ c.writeOff ≤ c.size ∧ c.size ≤ (c.buf.length : Int) then
    let w := c.writeOff.toNat
    let n := min p.length (c.size - c.writeOff).toNat
    some (n, { c with
      buf := c.buf.take w ++ p.take n ++ c.buf.drop (w + n),
      writeOff := c.writeOff + n,
      size := max c.size (c.writeOff + (n : Int)) })
  else none

/-- ChunkBuffer.Read into a destination of length req:
n := copy(p, c.buf[c.readOff:c.size]); c.readOff += n; the Bool result
is true when the Go method returns io.EOF (n < len(p)). -/
def read (c : ChunkBuffer) (req : Nat) : Option (List Nat × ChunkBuffer × Bool) :=
  if 0 ≤ c.readOff ∧ c.readOff ≤ c.size ∧ c.size ≤ (c.buf.length : Int) then
    let n := min req (c.size - c.readOff).toNat
    some ((c.buf.drop c.readOff.toNat).take n,
          { c with readOff := c.readOff + n },
          n < req)
  else none

/-- The offset a Seek call resolves before clamping: readOff+off for
SeekCurrent, size+off for SeekEnd, off for SeekStart. -/
def resolve (c : ChunkBuffer) (off : Int) (w : Whence) : Int :=
  match w with
  | .current => c.readOff + off
  | .seekEnd => c.size + off
  | .start => off

/-- ChunkBuffer.Seek: sets readOff according to whence, clamps with
Min64(readOff, size), copies the result into writeOff, returns it.
The Go error result is always nil. -/
def seek (c : ChunkBuffer) (off : Int) (w : Whence) : Int × ChunkBuffer :=
  let r := min (c.resolve off w) c.size
  (r, { c with readOff := r, writeOff := r })

/-- ChunkBuffer.WriteTo: writes c.buf[c.readOff:] to the sink and
advances readOff by the written count; none models the slice panic. -/
def writeTo (c : ChunkBuffer) : Option (List Nat × ChunkBuffer) :=
  if 0 ≤ c.readOff ∧ c.readOff ≤ (c.buf.length : Int) then
    let out := c.buf.drop c.readOff.toNat
    some (out, { c with readOff := c.readOff + out.length })
  else none

end ChunkBuffer

/-! ## Chunked encryption writer (catfs/mio/encrypt/writer.go)

The Writer state.  The bytes the writer emits to its sink are recorded
as a trace of items: the header emission and one frame item per
flushPack call.  The AEAD Seal call and the header serialization are
external to the source under src/ and are modelled from the spec; a
frame item therefore records the nonce and the plaintext pack that was
sealed, and outBytes below renders the byte stream for a given seal
function. -/

/-- One write event of the encryption writer: the header, or one frame
(nonce plus the plaintext pack sealed into it). -/
inductive EncItem where
  | header
  | frame (nonce : List Nat) (pack : List Nat)
deriving DecidableEq

/-- The encrypt.Writer state: emitted trace, leftover buffer rbuf,
block counter, header flag, maximum block size and the 12 byte nonce
scratch buffer. -/
structure EncWriter where
  out : List EncItem
  rbuf : List Nat
  blockCount : Nat
  headerWritten : Bool
  maxBlockSize : Nat
  nonce : List Nat
deriving DecidableEq

/-- Fresh writer as built by NewWriterWithBlockSize; the nonce scratch
buffer starts as 12 zero bytes (initAeadCommon is outside src/; the
spec fixes the nonce layout as a little endian u64 counter followed by
4 zero bytes). -/
def mkEncWriter (bs : Nat) : EncWriter :=
  { out := [], rbuf := [], blockCount := 0, headerWritten := false,
    maxBlockSize := bs, nonce := List.replicate 12 0 }

/-- Modelled from the spec: GenerateHeader.  Layout per the spec: magic
"mooncake" (8 bytes), version u16 = 1, cipher u16, key hash (8 bytes),
block size u32 big endian, reserved zero bytes.  The spec fixes the
total header size at 36 bytes, so the reserved tail is 12 bytes. -/
def generateHeader (keyHash : List Nat) (cipher bs : Nat) : List Nat :=
  [109, 111, 111, 110, 99, 97, 107, 101] ++ putU16BE 1 ++ putU16BE cipher ++
  ((keyHash ++ List.replicate 8 0).take 8) ++ putU32BE bs ++ List.replicate 12 0

namespace EncWriter

/-- Writer.emitHeaderIfNeeded: on the first call appends the header
item and sets the flag. -/
def emitHeaderIfNeeded (w : EncWriter) : EncWriter :=
  if w.headerWritten then w
  else { w with headerWritten := true, out := w.out ++ [.header] }

/-- Writer.flushPack: writes the little endian block counter into the
first 8 nonce bytes, seals the pack, writes nonce and ciphertext to the
sink (recorded as one frame item) and increments blockCount.  The Go
counter is a uint64, hence the mod 2^64. -/
def flushPack (w : EncWriter) (pack : List Nat) : EncWriter :=
  let nonce := putU64LE (w.blockCount % 2 ^ 64) ++ w.nonce.drop 8
  { w with
    nonce := nonce,
    out := w.out ++ [.frame nonce pack],
    blockCount := w.blockCount + 1 }

/-- The loop of Writer.Write: while rbuf holds at least maxBlockSize
bytes, flush one full block taken from the front of rbuf. -/
def flushFull : Nat → EncWriter → EncWriter
  | 0, w => w
  | fuel + 1, w =>
    if w.maxBlockSize ≤ w.rbuf.length then
      flushFull fuel
        (flushPack { w with rbuf := w.rbuf.drop w.maxBlockSize }
          (w.rbuf.take w.maxBlockSize))
    else w

/-- Writer.Write: emit the header if needed, drain full blocks from
rbuf, append p to rbuf, acknowledge len(p). -/
def write (w : EncWriter) (p : List Nat) : Nat × EncWriter :=
  let w1 := w.emitHeaderIfNeeded
  let w2 := flushFull w1.rbuf.length w1
  (p.length, { w2 with rbuf := w2.rbuf ++ p })

/-- The loop of Writer.Close: while rbuf is non-empty, flush
min(len(rbuf), maxBlockSize) bytes from its front. -/
def closeFlush : Nat → EncWriter → EncWriter
  | 0, w => w
  | fuel + 1, w =>
    if 0 < w.rbuf.length then
      let n := min w.rbuf.length w.maxBlockSize
      closeFlush fuel (flushPack { w with rbuf := w.rbuf.drop n } (w.rbuf.take n))
    else w

/-- Writer.Close: emit the header if needed, then flush the remaining
buffered bytes block by block.  Returns the final state (the Go error
result is nil when the sink accepts all writes, as in this model). -/
def close (w : EncWriter) : EncWriter :=
  let w1 := w.emitHeaderIfNeeded
  closeFlush w1.rbuf.length w1

/-- The loop of Writer.ReadFrom over an ideal source holding src: each
round reads up to one scratch buffer of bytes (io.ReadFull semantics:
a full buffer yields no error, a short read yields an EOF style error),
checks the alignment of the previous round, flushes the bytes read and
stops after a short read.  Returns (total bytes read, error, state).
The scratch size constant defaultDecBufferSize is declared outside
src/; per the spec the bulk path reads into block sized scratch, so the
buffer size is maxBlockSize. -/
def readFromLoop : Nat → EncWriter → List Nat → Nat → Int → Nat × Option Err × EncWriter
  | 0, w, _, n, _ => (n, some .fuelExhausted, w)
  | fuel + 1, w, src, n, nprev =>
    let bufSize := w.maxBlockSize
    let nread := min bufSize src.length
    let shortRead := nread < bufSize
    let n1 := n + nread
    if 0 ≤ nprev ∧ nprev ≠ (bufSize : Int) ∧ ¬shortRead then
      (n1, some .badBlockSize, w)
    else
      let w1 := if 0 < nread
        then { w.flushPack (src.take nread) with rbuf := [] }
        else w
      if shortRead then (n1, none, w1)
      else readFromLoop fuel w1 (src.drop nread) n1 (nread : Int)

/-- Writer.ReadFrom: emit the header if needed; refuse with
ErrMixedMethods while rbuf holds unflushed bytes; otherwise run the
bulk loop. -/
def readFrom (w : EncWriter) (src : List Nat) : Nat × Option Err × EncWriter :=
  let w1 := w.emitHeaderIfNeeded
  if 0 < w1.rbuf.length then (0, some .mixedMethods, w1)
  else readFromLoop (src.length + 2) w1 src 0 (-1)

end EncWriter

/-- One caller-side operation on the encryption writer. -/
inductive EncOp where
  | write (p : List Nat)
  | close
  | readFrom (src : List Nat)

/-- Run a sequence of caller operations against a writer state. -/
def runEncOps : List EncOp → EncWriter → EncWriter
  | [], w => w
  | .write p :: rest, w => runEncOps rest (w.write p).2
  | .close :: rest, w => runEncOps rest w.close
  | .readFrom src :: rest, w => runEncOps rest (w.readFrom src).2.2

/-- The frames of an emission trace, in emission order: the (nonce,
pack) pairs of the frame items. -/
def framesOf (items : List EncItem) : List (List Nat × List Nat) :=
  items.filterMap fun i =>
    match i with
    | .header => none
    | .frame n p => some (n, p)

/-- The byte stream an emission trace stands for, given the serialized
header bytes and the seal function of the chosen AEAD: each frame
contributes its 12 byte nonce followed by the ciphertext of its pack. -/
def outBytes (hdr : List Nat) (sealFn : List Nat → List Nat → List Nat)
    (items : List EncItem) : List Nat :=
  (items.map fun i =>
    match i with
    | .header => hdr
    | .frame n p => n ++ sealFn n p).flatten

/-- The nonce discipline invariant of a writer state: the block counter
equals the number of frames emitted so far, the tail 4 bytes of the
nonce scratch buffer are zero, and the i-th emitted frame carries the
nonce built from the little endian counter value i mod 2^64 followed by
the 4 zero tail bytes. -/
def nonceOK (w : EncWriter) : Prop :=
  w.blockCount = (framesOf w.out).length ∧
  w.nonce.drop 8 = [0, 0, 0, 0] ∧
  ∀ i, i < (framesOf w.out).length →
    ((framesOf w.out).getD i ([], [])).1 = putU64LE (i % 2 ^ 64) ++ [0, 0, 0, 0]

/-! ## Seekable decompression reader (catfs/mio/compress, src/unnamed/part_006)

The Reader of the compress package, embedded at byte level.  The
underlying io.ReadSeeker rawR is modelled as the byte list data plus
the position pos; its Seek, io.ReadFull and io.CopyN calls follow the
io package semantics.  The package constants and codecs that the
reader uses but that live outside src/ (headerSize, trailerSize,
indexChunkSize, readHeader, trailer.unmarshal, record.unmarshal,
AlgorithmFromType) are modelled from the spec layout: a 12 byte header
"cz01" / algo / flags / 6 reserved bytes, 16 byte index records of two
big endian u64 fields (raw offset, zip offset), and a 16 byte trailer
of a big endian u64 index size followed by the magic "cztrail1". -/

/-- A compression algorithm as the reader consumes it: Encode is used
only by the (spec-modelled) writer, Decode by the reader.  The concrete
algorithms are external libraries, kept abstract here. -/
structure Algorithm where
  encode : List Nat → List Nat
  decode : List Nat → Except Err (List Nat)

/-- One index record: raw (uncompressed) offset and zip (compressed,
file absolute) offset, both int64 in the source. -/
structure Record where
  rawOff : Int
  zipOff : Int
deriving DecidableEq

/-- compress.headerSize: the header is 12 bytes. -/
def headerSize : Nat := 12

/-- compress.trailerSize: the trailer is 16 bytes. -/
def trailerSize : Nat := 16

/-- compress.indexChunkSize: one marshalled index record is 16 bytes. -/
def indexChunkSize : Nat := 16

/-- The 4 byte header magic "cz01". -/
def compressMagic : List Nat := [99, 122, 48, 49]

/-- The 8 byte trailer magic "cztrail1". -/
def trailerMagic : List Nat := [99, 122, 116, 114, 97, 105, 108, 49]

/-- Modelled from the spec: readHeader validates the 4 byte magic and
returns the algorithm byte at offset 4. -/
def readHeader (b : List Nat) : Except Err Nat :=
  if b.take 4 = compressMagic then .ok (b.getD 4 0) else .error .badHeader

/-- Modelled from the spec: record.unmarshal reads two big endian u64
fields from the front of the buffer into int64 fields. -/
def recordUnmarshal (b : List Nat) : Record :=
  { rawOff := toInt64 (getU64BE b), zipOff := toInt64 (getU64BE (b.drop 8)) }

/-- The compress.Reader state.  rawR is (data, pos); index, algo,
rawSeekOffset, zipSeekOffset and isInitialRead are the fields of the
source struct; trailerParsed and trailerIndexSize stand for the parsed
trailer pointer; chunkData and chunkOff are the buffer and read offset
of the chunkBuf field (a chunk buffer created via NewChunkBuffer, so
its size always equals the buffer length); algos is the algorithm table
behind AlgorithmFromType. -/
structure RState where
  data : List Nat
  pos : Int
  index : List Record
  trailerParsed : Bool
  trailerIndexSize : Nat
  algo : Option Algorithm
  algos : Nat → Option Algorithm
  chunkData : List Nat
  chunkOff : Int
  rawSeekOffset : Int
  zipSeekOffset : Int
  isInitialRead : Bool

/-- NewReader: empty index, no trailer, an empty chunk buffer. -/
def mkReader (data : List Nat) (algos : Nat → Option Algorithm) : RState :=
  { data := data, pos := 0, index := [], trailerParsed := false,
    trailerIndexSize := 0, algo := none, algos := algos,
    chunkData := [], chunkOff := 0, rawSeekOffset := 0,
    zipSeekOffset := 0, isInitialRead := false }

namespace RState

/-- Seek of the underlying io.ReadSeeker: resolves the target against
start, current position or end of data and fails on a negative result. -/
def rawSeek (st : RState) (off : Int) (w : Whence) : Except Err Int × RState :=
  let npos : Int :=
    match w with
    | .start => off
    | .current => st.pos + off
    | .seekEnd => (st.data.length : Int) + off
  if npos < 0 then (.error .negativeSeek, st)
  else (.ok npos, { st with pos := npos })

/-- io.ReadFull of n bytes from the underlying reader: all n bytes or
io.EOF (nothing available) or io.ErrUnexpectedEOF (partial data). -/
def readFullRaw (st : RState) (n : Nat) : Except Err (List Nat) × RState :=
  if st.pos + (n : Int) ≤ (st.data.length : Int) then
    (.ok ((st.data.drop st.pos.toNat).take n), { st with pos := st.pos + n })
  else if (st.data.length : Int) ≤ st.pos then (.error .eof, st)
  else (.error .unexpectedEOF, st)

/-- io.CopyN of n bytes from the underlying reader into the decode
buffer: yields the bytes, or io.EOF when fewer than n are available. -/
def copyNRaw (st : RState) (n : Int) : Except Err (List Nat) × RState :=
  if n ≤ 0 then (.ok [], st)
  else if st.pos + n ≤ (st.data.length : Int) then
    (.ok ((st.data.drop st.pos.toNat).take n.toNat), { st with pos := st.pos + n })
  else (.error .eof, st)

end RState

/-- The loop of sort.Search: binary search for the smallest index in
[i, j) satisfying f, assuming f is monotone on [0, j).  The loop
executes at most j - i halving steps; the fuel argument (instantiated
with an upper bound of the interval width by sortSearch) makes the
recursion structural. -/
def ssAux (f : Nat → Bool) : Nat → Nat → Nat → Nat
  | 0, i, _ => i
  | fuel + 1, i, j =>
    if i < j then
      let m := (i + j) / 2
      if f m then ssAux f fuel i m else ssAux f fuel (m + 1) j
    else i

/-- sort.Search(n, f). -/
def sortSearch (n : Nat) (f : Nat → Bool) : Nat := ssAux f n 0 n

namespace RState

/-- Reader.chunkLookup: returns the records delimiting the chunk that
currOff lies in, searching by rawOff or by zipOff.  The Go code indexes
r.index[i+1], r.index[i-1] and r.index[i] without bounds checks; the
error value panic models the out of range panic on an index that is too
short. -/
def recKey (isRawOff : Bool) (r : Record) : Int :=
  if isRawOff then r.rawOff else r.zipOff

def chunkLookup (st : RState) (currOff : Int) (isRawOff : Bool) :
    Except Err (Record × Record) :=
  let n := st.index.length
  let f := fun i => decide (currOff < recKey isRawOff (st.index.getD i ⟨0, 0⟩))
  let i := sortSearch n f
  if i = 0 then
    match st.index.get? 0, st.index.get? 1 with
    | some a, some b => .ok (a, b)
    | _, _ => .error .panic
  else if i = n then
    match st.index.get? (n - 1) with
    | some a => .ok (a, a)
    | none => .error .panic
  else
    match st.index.get? (i - 1), st.index.get? i with
    | some a, some b => .ok (a, b)
    | _, _ => .error .panic

/-- The index building loop of parseTrailerIfNeeded: count iterations,
each unmarshalling one record from the front of the buffer, comparing
it against prevRecord and appending it to the index.  As in the source,
prevRecord is initialized to (-1, -1) by the caller and never advanced
inside the loop, so every record is compared against (-1, -1) and the
intended successive-record monotonicity is not enforced. -/
def parseIndexLoop : Nat → List Nat → Record → RState → Except Err Unit × RState
  | 0, _, _, st => (.ok (), st)
  | count + 1, buf, prevRecord, st =>
    let currRecord := recordUnmarshal buf
    if currRecord.rawOff ≤ prevRecord.rawOff then (.error .badIndex, st)
    else if currRecord.zipOff ≤ prevRecord.zipOff then (.error .badIndex, st)
    else
      parseIndexLoop count (buf.drop indexChunkSize) prevRecord
        { st with index := st.index ++ [currRecord] }

/-- Reader.parseTrailerIfNeeded: on first use reads and validates the
front header, reads the trailer from the end, selects the algorithm,
reads the index buffer, builds the index records and repositions the
underlying reader at headerSize.  As in the source, the trailer pointer
is set (trailerParsed := true) before the index is validated. -/
def parseTrailerIfNeeded (st : RState) : Except Err Unit × RState :=
  if st.trailerParsed then (.ok (), st)
  else
    match st.readFullRaw headerSize with
    | (.error e, st1) => (.error e, st1)
    | (.ok headerBuf, st1) =>
      match readHeader headerBuf with
      | .error e => (.error e, st1)
      | .ok algoId =>
        match st1.rawSeek (-(trailerSize : Int)) .seekEnd with
        | (.error e, st2) => (.error e, st2)
        | (.ok _, st2) =>
          match st2.readFullRaw trailerSize with
          | (.error e, st3) => (.error e, st3)
          | (.ok trailerBuf, st3) =>
            let isz := getU64BE (trailerBuf.take 8)
            let st4 := { st3 with trailerParsed := true, trailerIndexSize := isz }
            match st4.algos algoId with
            | none => (.error .unknownAlgorithm, st4)
            | some a =>
              let st5 := { st4 with algo := some a }
              match st5.rawSeek (-((isz : Int) + (trailerSize : Int))) .seekEnd with
              | (.error e, st6) => (.error e, st6)
              | (.ok _, st6) =>
                match st6.readFullRaw isz with
                | (.error e, st7) => (.error e, st7)
                | (.ok indexBuf, st7) =>
                  match parseIndexLoop (isz / indexChunkSize) indexBuf ⟨-1, -1⟩ st7 with
                  | (.error e, st8) => (.error e, st8)
                  | (.ok _, st8) =>
                    match st8.rawSeek (headerSize : Int) .start with
                    | (.error e, st9) => (.error e, st9)
                    | (.ok _, st9) =>
                      (.ok (), { st9 with rawSeekOffset := (headerSize : Int),
                                          zipSeekOffset := 0 })

/-- Length of the unread part of the chunk buffer (chunkBuf.Len). -/
def chunkBufLen (st : RState) : Int := (st.chunkData.length : Int) - st.chunkOff

/-- Reader.fixZipChunk: look up the chunk containing the current
compressed offset, stop with io.EOF on a zero chunk size, otherwise
seek the underlying reader to the chunk start and update the offsets. -/
def fixZipChunk (st : RState) : Except Err Int × RState :=
  match st.chunkLookup st.rawSeekOffset false with
  | .error e => (.error e, st)
  | .ok (prevRecord, currRecord) =>
    let chunkSize := currRecord.zipOff - prevRecord.zipOff
    if chunkSize = 0 then (.error .eof, st)
    else
      match st.rawSeek prevRecord.zipOff .start with
      | (.error e, st1) => (.error e, st1)
      | (.ok _, st1) =>
        (.ok chunkSize,
         { st1 with rawSeekOffset := currRecord.zipOff,
                    zipSeekOffset := prevRecord.rawOff,
                    isInitialRead := false })

/-- Reader.readZipChunk: reset the chunk buffer, fix the chunk window,
copy the compressed chunk, decode it and install the decoded bytes as
the new chunk buffer. -/
def readZipChunk (st : RState) : Except Err (List Nat) × RState :=
  let st0 := { st with chunkData := [], chunkOff := 0 }
  match st0.fixZipChunk with
  | (.error e, st1) => (.error e, st1)
  | (.ok chunkSize, st1) =>
    match st1.copyNRaw chunkSize with
    | (.error e, st2) => (.error e, st2)
    | (.ok zipData, st2) =>
      match st2.algo with
      | none => (.error .panic, st2)
      | some a =>
        match a.decode zipData with
        | .error e => (.error e, st2)
        | .ok decData => (.ok decData, { st2 with chunkData := decData, chunkOff := 0 })

/-- The loop of Reader.Read for a destination of req bytes: drain the
chunk buffer into the destination, stop when the destination is full,
otherwise load the next chunk and repeat.  Returns the bytes served,
the error of the Go return pair (none for nil) and the final state. -/
def readLoop : Nat → RState → Nat → List Nat → List Nat × Option Err × RState
  | 0, st, _, acc => (acc, some .fuelExhausted, st)
  | fuel + 1, st, req, acc =>
    let step :=
      if st.chunkBufLen ≠ 0 then
        let n := min req st.chunkBufLen.toNat
        (({ st with chunkOff := st.chunkOff + (n : Int),
                    zipSeekOffset := st.zipSeekOffset + (n : Int) } : RState),
         acc ++ (st.chunkData.drop st.chunkOff.toNat).take n,
         req - n)
      else (st, acc, req)
    match step with
    | (st1, acc1, req1) =>
      if req1 = 0 then (acc1, none, st1)
      else
        match st1.readZipChunk with
        | (.error e, st2) => (acc1, some e, st2)
        | (.ok _, st2) => readLoop fuel st2 req1 acc1

/-- Reader.Read with a destination buffer of req bytes: parse the
trailer if needed, then run the read loop.  The fuel covers one loop
round per index record plus the final EOF round. -/
def compressRead (st : RState) (req : Nat) : List Nat × Option Err × RState :=
  match st.parseTrailerIfNeeded with
  | (.error e, st1) => ([], some e, st1)
  | (.ok _, st1) => readLoop (st1.index.length + 2) st1 req []

/-- The main branch of Reader.Seek (SeekStart, reached directly or via
the recursive calls of the SeekCurrent and SeekEnd cases): parse the
trailer, reject negative targets with io.EOF, look up the destination
chunk, reload the chunk buffer unless the target stays in the current
chunk on the very first read, and position the chunk buffer cursor. -/
def compressSeekStart (st : RState) (destOff : Int) : Except Err Int × RState :=
  match st.parseTrailerIfNeeded with
  | (.error e, st1) => (.error e, st1)
  | (.ok _, st1) =>
    if destOff < 0 then (.error .eof, st1)
    else
      match st1.chunkLookup destOff true with
      | .error e => (.error e, st1)
      | .ok (destRecord, _) =>
        match st1.chunkLookup st1.zipSeekOffset true with
        | .error e => (.error e, st1)
        | .ok (currRecord, _) =>
          let st2 := { st1 with rawSeekOffset := destRecord.zipOff,
                                zipSeekOffset := destOff }
          let next : Except Err Unit × RState :=
            if currRecord.rawOff ≠ destRecord.rawOff ∨ st2.isInitialRead = false then
              match st2.readZipChunk with
              | (.error e, st3) => if e = .eof then (.ok (), st3) else (.error e, st3)
              | (.ok _, st3) => (.ok (), st3)
            else (.ok (), st2)
          match next with
          | (.error e, st3) => (.error e, st3)
          | (.ok _, st3) =>
            let toRead := destOff - destRecord.rawOff
            (.ok destOff,
             { st3 with chunkOff := min toRead ((st3.chunkData.length : Int)) })

/-- Reader.Seek: the SeekEnd case rejects positive offsets with io.EOF
and otherwise resolves against the rawOff of the last index record; the
SeekCurrent case resolves against the plaintext cursor; both recurse
into the SeekStart path. -/
def compressSeek (st : RState) (destOff : Int) (w : Whence) : Except Err Int × RState :=
  match w with
  | .seekEnd =>
    if 0 < destOff then (.error .eof, st)
    else
      match st.parseTrailerIfNeeded with
      | (.error e, st1) => (.error e, st1)
      | (.ok _, st1) =>
        match st1.index.getLast? with
        | none => (.error .panic, st1)
        | some lastRec => st1.compressSeekStart (lastRec.rawOff + destOff)
  | .current => st.compressSeekStart (st.zipSeekOffset + destOff)
  | .start => st.compressSeekStart destOff

end RState

/-! ## The compression writer, modelled from the spec

The compress writer is not under src/: only its reader is.  Per the
spec it emits the 12 byte header, splits the plaintext into chunks of a
fixed uncompressed size, records the (raw, zip) position of the sink
before writing each compressed chunk, and on close appends the end
sentinel record, the flat index and the trailer.  The zip offsets are
positions in the sink, which already holds the 12 byte header when the
first chunk is recorded (the reader requires this: fixZipChunk seeks
the underlying reader to record.zipOff from the file start, and
parseTrailerIfNeeded initializes the compressed cursor to headerSize).
For empty input the index still holds the start and end sentinel
records, as the spec requires. -/

/-- Split a byte list into consecutive chunks of cs bytes (the last one
possibly shorter); fuel-driven helper. -/
def chunksOfAux : Nat → Nat → List Nat → List (List Nat)
  | 0, _, b => if b.isEmpty then [] else [b]
  | fuel + 1, cs, b =>
    if b.isEmpty then [] else b.take cs :: chunksOfAux fuel cs (b.drop cs)

/-- Split a byte list into consecutive chunks of cs bytes. -/
def chunksOf (cs : Nat) (b : List Nat) : List (List Nat) :=
  chunksOfAux b.length cs b

/-- Cumulative uncompressed length of the first k chunks. -/
def rawAt (chunks : List (List Nat)) (k : Nat) : Nat :=
  ((chunks.take k).map List.length).sum

/-- Sink position before the k-th compressed chunk: the 12 byte header
plus the cumulative compressed length of the first k chunks. -/
def zipAt (A : Algorithm) (chunks : List (List Nat)) (k : Nat) : Nat :=
  headerSize + (((chunks.map A.encode).take k).map List.length).sum

/-- Conversion of a writer-side (rawOff, zipOff) pair of naturals to a
reader-side record of int64 values. -/
def toRec (q : Nat × Nat) : Record := { rawOff := (q.1 : Int), zipOff := (q.2 : Int) }

/-- Modelled from the spec: the index records of the compressed object
for plaintext p, as (rawOff, zipOff) pairs of naturals.  Record k holds
the cumulative uncompressed length of the first k chunks and the sink
position (12 byte header plus the cumulative compressed length) before
chunk k; the final record is the end sentinel.  For empty input the
index is the start sentinel followed by the end sentinel. -/
def compressIndexN (A : Algorithm) (cs : Nat) (p : List Nat) : List (Nat × Nat) :=
  let chunks := chunksOf cs p
  if chunks.isEmpty then [(0, headerSize), (0, headerSize)]
  else
    (List.range (chunks.length + 1)).map fun k =>
      (rawAt chunks k, zipAt A chunks k)

/-- The 12 byte object header: magic, algorithm byte, flags byte, six
reserved zero bytes. -/
def objHeader (algoId : Nat) : List Nat :=
  compressMagic ++ [algoId % 256, 0] ++ List.replicate 6 0

/-- The object body: the concatenated compressed chunks. -/
def objBody (A : Algorithm) (cs : Nat) (p : List Nat) : List Nat :=
  ((chunksOf cs p).map A.encode).flatten

/-- The marshalled index: 16 bytes per record, two big endian u64
fields each. -/
def objIndexBytes (A : Algorithm) (cs : Nat) (p : List Nat) : List Nat :=
  ((compressIndexN A cs p).map fun r => putU64BE r.1 ++ putU64BE r.2).flatten

/-- The 16 byte trailer: big endian u64 index size, then the magic. -/
def objTrailer (A : Algorithm) (cs : Nat) (p : List Nat) : List Nat :=
  putU64BE (indexChunkSize * (compressIndexN A cs p).length) ++ trailerMagic

/-- Modelled from the spec: the serialized compressed object for
plaintext p under algorithm A (stored with algorithm byte algoId):
header, compressed chunks, marshalled index, trailer. -/
def compressObject (A : Algorithm) (algoId cs : Nat) (p : List Nat) : List Nat :=
  objHeader algoId ++ objBody A cs p ++ objIndexBytes A cs p ++ objTrailer A cs p

/-- The reader state right after a successful parseTrailerIfNeeded over
a writer-produced object. -/
def parsedState (A : Algorithm) (algoId cs : Nat) (p : List Nat)
    (algos : Nat → Option Algorithm) : RState :=
  { data := compressObject A algoId cs p, pos := (headerSize : Int),
    index := (compressIndexN A cs p).map toRec,
    trailerParsed := true,
    trailerIndexSize := indexChunkSize * (compressIndexN A cs p).length,
    algo := some A, algos := algos, chunkData := [], chunkOff := 0,
    rawSeekOffset := (headerSize : Int), zipSeekOffset := 0,
    isInitialRead := false }

/-- The identity algorithm (algorithm type 0, no compression): encode
is the identity and decode always succeeds with its input.  Used to
instantiate the abstract algorithm in concrete executions. -/
def idAlg : Algorithm := { encode := id, decode := fun b => .ok b }

/-- A one-entry algorithm table holding the identity algorithm at
type 0. -/
def idAlgos : Nat → Option Algorithm := fun i => if i = 0 then some idAlg else none

/-- A concrete compressed object whose index records are not
monotonically increasing: records (0,12), (5,20), (3,25) (the rawOff
drops from 5 to 3).  Header and trailer are well formed; the body bytes
are irrelevant to the parse. -/
def badIndexObject : List Nat :=
  (compressMagic ++ [0, 0] ++ List.replicate 6 0)
  ++ ([((0 : Nat), (12 : Nat)), (5, 20), (3, 25)].map fun r =>
        putU64BE r.1 ++ putU64BE r.2).flatten
  ++ putU64BE (indexChunkSize * 3) ++ trailerMagic

/-! ## Basic lemmas on the byte encodings -/

theorem length_putU64BE (n : Nat) : (putU64BE n).length = 8 := rfl

theorem length_putU64LE (n : Nat) : (putU64LE n).length = 8 := rfl

theorem getU64BE_putU64BE (n : Nat) (rest : List Nat) (h : n < 2 ^ 64) :
    getU64BE (putU64BE n ++ rest) = n := by
  simp only [putU64BE, List.cons_append, List.nil_append, getU64BE]
  omega

theorem getU64BE_putU64BE_self (n : Nat) (h : n < 2 ^ 64) :
    getU64BE (putU64BE n) = n := by
  simp only [putU64BE, getU64BE]
  omega

theorem putU64LE_inj (a b : Nat) (ha : a < 2 ^ 64) (hb : b < 2 ^ 64)
    (h : putU64LE a = putU64LE b) : a = b := by
  simp only [putU64LE, List.cons.injEq, and_true] at h
  omega

theorem toInt64_small (u : Nat) (h : u < 2 ^ 63) : toInt64 u = (u : Int) := by
  simp only [toInt64]
  rw [if_pos h]

theorem drop8_putU64BE (n : Nat) (rest : List Nat) :
    (putU64BE n ++ rest).drop 8 = rest := rfl

theorem drop8_putU64LE (n : Nat) (rest : List Nat) :
    (putU64LE n ++ rest).drop 8 = rest := rfl

theorem take8_putU64LE (n : Nat) (rest : List Nat) :
    (putU64LE n ++ rest).take 8 = putU64LE n := rfl

theorem recordUnmarshal_marshal (a b : Nat) (rest : List Nat)
    (ha : a < 2 ^ 63) (hb : b < 2 ^ 63) :
    recordUnmarshal (putU64BE a ++ (putU64BE b ++ rest)) =
      { rawOff := (a : Int), zipOff := (b : Int) } := by
  have h64a : a < 2 ^ 64 := by omega
  have h64b : b < 2 ^ 64 := by omega
  simp only [recordUnmarshal, drop8_putU64BE,
    getU64BE_putU64BE _ _ h64a, getU64BE_putU64BE _ _ h64b,
    toInt64_small _ ha, toInt64_small _ hb]

/-! ## Claims C9 and C10: the chunk buffer -/

/-- C9 (amended): after a Seek whose resolved target offset is
non-negative, the stored read offset lies in [0, size] and subsequent
Read, Write and WriteTo calls access the backing slice in bounds; a
Seek resolving to a negative offset instead stores the negative offset
unclamped (see the counterexample). -/
theorem C9_chunkbuf_seek_inbounds (c : ChunkBuffer) (off : Int) (w : Whence)
    (req : Nat) (p : List Nat)
    (hsz : c.size = (c.buf.length : Int))
    (hres : 0 ≤ c.resolve off w) :
    0 ≤ ((c.seek off w).2).readOff ∧
    ((c.seek off w).2).readOff ≤ ((c.seek off w).2).size ∧
    (((c.seek off w).2).read req).isSome ∧
    (((c.seek off w).2).write p).isSome ∧
    ((c.seek off w).2).writeTo.isSome := by
  have hlen : (0 : Int) ≤ (c.buf.length : Int) := Int.natCast_nonneg _
  constructor
  · simp only [ChunkBuffer.seek]
    exact le_min hres (hsz ▸ hlen)
  constructor
  · simp only [ChunkBuffer.seek]
    exact min_le_right _ _
  refine ⟨?_, ?_, ?_⟩
  · simp only [ChunkBuffer.read, ChunkBuffer.seek]
    rw [if_pos]
    · simp
    · exact ⟨le_min hres (hsz ▸ hlen), min_le_right _ _, le_of_eq hsz⟩
  · simp only [ChunkBuffer.write, ChunkBuffer.seek]
    rw [if_pos]
    · simp
    · exact ⟨le_min hres (hsz ▸ hlen), min_le_right _ _, le_of_eq hsz⟩
  · simp only [ChunkBuffer.writeTo, ChunkBuffer.seek]
    rw [if_pos]
    · simp
    · exact ⟨le_min hres (hsz ▸ hlen), le_trans (min_le_right _ _) (le_of_eq hsz)⟩

/-- C9 witness: a concrete in-bounds seek on a 3 byte buffer. -/
theorem C9_chunkbuf_seek_inbounds_witness :
    (NewChunkBuffer [5, 6, 7]).size = (((NewChunkBuffer [5, 6, 7]).buf.length : Nat) : Int) ∧
    (0 ≤ (NewChunkBuffer [5, 6, 7]).resolve 2 .start) ∧
    (0 ≤ (((NewChunkBuffer [5, 6, 7]).seek 2 .start).2).readOff ∧
     (((NewChunkBuffer [5, 6, 7]).seek 2 .start).2).readOff ≤
       (((NewChunkBuffer [5, 6, 7]).seek 2 .start).2).size ∧
     ((((NewChunkBuffer [5, 6, 7]).seek 2 .start).2).read 1).isSome ∧
     ((((NewChunkBuffer [5, 6, 7]).seek 2 .start).2).write [9]).isSome ∧
     (((NewChunkBuffer [5, 6, 7]).seek 2 .start).2).writeTo.isSome) :=
  ⟨by decide, by decide,
   C9_chunkbuf_seek_inbounds (NewChunkBuffer [5, 6, 7]) 2 .start 1 [9]
     (by decide) (by decide)⟩

/-- C9 counterexample: Seek(-1, SeekStart) on a 3 byte chunk buffer
stores read offset -1, which is outside [0, size]; the following Read
indexes the backing slice out of range (the Go code panics, modelled by
none). -/
theorem C9_chunkbuf_seek_negative_counterexample :
    ((NewChunkBuffer [5, 6, 7]).seek (-1) .start).2.readOff = -1 ∧
    ¬ (0 ≤ ((NewChunkBuffer [5, 6, 7]).seek (-1) .start).2.readOff) ∧
    ((NewChunkBuffer [5, 6, 7]).seek (-1) .start).2.read 1 = none := by
  decide

/-- C10: ChunkBuffer.Write at write offset w into a backing buffer of
length c copies exactly min(len(p), c - w) bytes, returns that count
(the Go error result is always nil: the model has no error channel on
write), and neither the backing buffer length nor the size field grows. -/
theorem C10_chunkbuf_write_caps (c : ChunkBuffer) (p : List Nat)
    (hsz : c.size = (c.buf.length : Int))
    (h0 : 0 ≤ c.writeOff) (h1 : c.writeOff ≤ c.size) :
    (c.write p).isSome ∧
    ∀ n c', c.write p = some (n, c') →
      n = min p.length (c.buf.length - c.writeOff.toNat) ∧
      c'.buf.length = c.buf.length ∧ c'.size = c.size ∧
      c'.writeOff = c.writeOff + (n : Int) := by
  have hcond : 0 ≤ c.writeOff ∧ c.writeOff ≤ c.size ∧ c.size ≤ (c.buf.length : Int) :=
    ⟨h0, h1, le_of_eq hsz⟩
  have hn : (c.size - c.writeOff).toNat = c.buf.length - c.writeOff.toNat := by
    omega
  have hwlen : c.writeOff.toNat ≤ c.buf.length := by omega
  simp only [ChunkBuffer.write, if_pos hcond, Option.isSome_some, true_and,
    Option.some.injEq, Prod.mk.injEq]
  intro n c' hb
  obtain ⟨hne, hce⟩ := hb
  subst hne
  subst hce
  refine ⟨hn ▸ rfl, ?_, ?_, by simp [hn]⟩
  · simp only [List.length_append, List.length_take, List.length_drop]
    omega
  · have : c.writeOff + ((min p.length (c.size - c.writeOff).toNat : Nat) : Int) ≤ c.size := by
      omega
    simpa using max_eq_left this

/-- C10 witness: writing 5 bytes into a 3 byte buffer at offset 0
copies exactly 3 bytes. -/
theorem C10_chunkbuf_write_caps_witness :
    ((NewChunkBuffer [5, 6, 7]).size =
      (((NewChunkBuffer [5, 6, 7]).buf.length : Nat) : Int)) ∧
    (((NewChunkBuffer [5, 6, 7]).write [1, 2, 3, 4, 5]).isSome ∧
     ∀ n c', (NewChunkBuffer [5, 6, 7]).write [1, 2, 3, 4, 5] = some (n, c') →
       n = min ([1, 2, 3, 4, 5] : List Nat).length
         ((NewChunkBuffer [5, 6, 7]).buf.length -
           (NewChunkBuffer [5, 6, 7]).writeOff.toNat) ∧
       c'.buf.length = (NewChunkBuffer [5, 6, 7]).buf.length ∧
       c'.size = (NewChunkBuffer [5, 6, 7]).size ∧
       c'.writeOff = (NewChunkBuffer [5, 6, 7]).writeOff + (n : Int)) :=
  ⟨by decide,
   C10_chunkbuf_write_caps (NewChunkBuffer [5, 6, 7]) [1, 2, 3, 4, 5]
     (by decide) (by decide) (by decide)⟩

/-! ## Lemmas on chunk splitting -/

theorem chunksOfAux_eq_chunksOf (cs : Nat) (hcs : 1 ≤ cs) :
    ∀ f b, b.length ≤ f → chunksOfAux f cs b = chunksOf cs b := by
  intro f
  induction f using Nat.strong_induction_on with
  | _ f ih =>
    intro b hb
    match f with
    | 0 =>
      have : b = [] := List.eq_nil_of_length_eq_zero (Nat.le_zero.mp hb)
      subst this
      rfl
    | f + 1 =>
      by_cases hb0 : b = []
      · subst hb0; rfl
      · have hlen : 0 < b.length := List.length_pos.mpr hb0
        have hdrop : (b.drop cs).length ≤ f := by
          simp only [List.length_drop]; omega
        have hL : chunksOfAux (f + 1) cs b = b.take cs :: chunksOfAux f cs (b.drop cs) := by
          simp [chunksOfAux, hb0]
        obtain ⟨m, hm⟩ : ∃ m, b.length = m + 1 := ⟨b.length - 1, by omega⟩
        have hdrop2 : (b.drop cs).length ≤ m := by
          simp only [List.length_drop]; omega
        have hR : chunksOf cs b = b.take cs :: chunksOfAux m cs (b.drop cs) := by
          unfold chunksOf
          rw [hm]
          simp [chunksOfAux, hb0]
        rw [hL, hR, ih f (Nat.lt_succ_self f) _ hdrop,
          ih m (by omega) _ hdrop2]

theorem chunksOf_nil (cs : Nat) : chunksOf cs [] = [] := rfl

theorem chunksOf_cons (cs : Nat) (hcs : 1 ≤ cs) (b : List Nat) (hb : b ≠ []) :
    chunksOf cs b = b.take cs :: chunksOf cs (b.drop cs) := by
  obtain ⟨m, hm⟩ : ∃ m, b.length = m + 1 :=
    ⟨b.length - 1, by have := List.length_pos.mpr hb; omega⟩
  unfold chunksOf
  rw [hm]
  simp only [chunksOfAux, List.isEmpty_eq_true, hb, if_false]
  congr 1
  have : (b.drop cs).length ≤ m := by simp only [List.length_drop]; omega
  rw [chunksOfAux_eq_chunksOf cs hcs m _ this]
  rfl

theorem chunksOf_ne_nil (cs : Nat) (hcs : 1 ≤ cs) (b : List Nat) (hb : b ≠ []) :
    chunksOf cs b ≠ [] := by
  rw [chunksOf_cons cs hcs b hb]
  exact List.cons_ne_nil _ _

theorem chunksOf_eq_nil_iff (cs : Nat) (hcs : 1 ≤ cs) (b : List Nat) :
    chunksOf cs b = [] ↔ b = [] := by
  constructor
  · intro h
    by_contra hb
    exact chunksOf_ne_nil cs hcs b hb h
  · intro h; subst h; rfl

theorem chunksOf_flatten (cs : Nat) (hcs : 1 ≤ cs) (b : List Nat) :
    (chunksOf cs b).flatten = b := by
  generalize hn : b.length = n
  induction n using Nat.strong_induction_on generalizing b with
  | _ n ih =>
    by_cases hb : b = []
    · subst hb; rfl
    · rw [chunksOf_cons cs hcs b hb]
      have hlen : 0 < b.length := List.length_pos.mpr hb
      have hdl : (b.drop cs).length = b.length - cs := List.length_drop cs b
      rw [List.flatten_cons, ih (b.length - cs) (by omega) _ (by omega)]
      exact List.take_append_drop cs b

theorem chunksOf_mem (cs : Nat) (hcs : 1 ≤ cs) (b : List Nat) :
    ∀ c ∈ chunksOf cs b, c ≠ [] ∧ c.length ≤ cs := by
  generalize hn : b.length = n
  induction n using Nat.strong_induction_on generalizing b with
  | _ n ih =>
    by_cases hb : b = []
    · subst hb; intro c hc; cases hc
    · rw [chunksOf_cons cs hcs b hb]
      intro c hc
      rcases List.mem_cons.mp hc with h | h
      · subst h
        have hlen : 0 < b.length := List.length_pos.mpr hb
        constructor
        · intro habs
          have := congrArg List.length habs
          simp only [List.length_take, List.length_nil] at this
          omega
        · simp only [List.length_take]; omega
      · have hlen : 0 < b.length := List.length_pos.mpr hb
        have hdl : (b.drop cs).length = b.length - cs := List.length_drop cs b
        exact ih (b.length - cs) (by omega) _ (by omega) c h

theorem chunksOf_getLast_length (cs : Nat) (hcs : 1 ≤ cs) (b : List Nat) :
    ∀ lst, (chunksOf cs b).getLast? = some lst →
      lst.length = if b.length % cs = 0 then cs else b.length % cs := by
  generalize hn : b.length = n
  induction n using Nat.strong_induction_on generalizing b with
  | _ n ih =>
    subst hn
    by_cases hb : b = []
    · subst hb; intro lst h; cases h
    · intro lst h
      have hlen : 0 < b.length := List.length_pos.mpr hb
      rw [chunksOf_cons cs hcs b hb] at h
      by_cases hd : b.drop cs = []
      · have hble : b.length ≤ cs := by
          have := congrArg List.length hd
          simp only [List.length_drop, List.length_nil] at this
          omega
        rw [chunksOf_eq_nil_iff cs hcs _ |>.mpr hd] at h
        simp only [List.getLast?_singleton, Option.some.injEq] at h
        subst h
        have htake : (b.take cs).length = b.length := by
          simp only [List.length_take]; omega
        rw [htake]
        rcases Nat.lt_or_ge b.length cs with hlt | hge
        · have h1 : b.length % cs = b.length := Nat.mod_eq_of_lt hlt
          rw [if_neg (by omega), h1]
        · have hbcs : b.length = cs := le_antisymm hble hge
          rw [hbcs, Nat.mod_self, if_pos rfl]
      · have hne : chunksOf cs (b.drop cs) ≠ [] := chunksOf_ne_nil cs hcs _ hd
        obtain ⟨x, xs, hxs⟩ := List.exists_cons_of_ne_nil hne
        rw [hxs] at h
        rw [List.getLast?_cons_cons] at h
        rw [← hxs] at h
        have hdl : (b.drop cs).length = b.length - cs := List.length_drop cs b
        have hcslt : cs < b.length := by
          by_contra hcge
          exact hd (List.drop_eq_nil_of_le (by omega))
        have hrec := ih (b.length - cs) (by omega) (b.drop cs) (by omega) lst h
        rw [hrec]
        have hmod : (b.length - cs) % cs = b.length % cs := by
          conv_rhs => rw [show b.length = (b.length - cs) + cs by omega]
          rw [Nat.add_mod_right]
        rw [hmod]

/-! ## Claims C4, C5 and C6: the encryption writer -/

theorem framesOf_append (a b : List EncItem) :
    framesOf (a ++ b) = framesOf a ++ framesOf b := by
  simp [framesOf]

theorem nonceOK_emitHeader (w : EncWriter) (h : nonceOK w) :
    nonceOK w.emitHeaderIfNeeded := by
  unfold EncWriter.emitHeaderIfNeeded
  split
  · exact h
  · obtain ⟨h1, h2, h3⟩ := h
    refine ⟨?_, h2, ?_⟩ <;>
      simp only [framesOf_append] <;>
      simp only [framesOf, List.filterMap_cons, List.filterMap_nil, List.append_nil]
    · exact h1
    · exact h3

theorem nonceOK_flushPack (w : EncWriter) (pack : List Nat) (h : nonceOK w) :
    nonceOK (w.flushPack pack) := by
  obtain ⟨h1, h2, h3⟩ := h
  have hfr : framesOf (w.flushPack pack).out =
      framesOf w.out ++ [(putU64LE (w.blockCount % 2 ^ 64) ++ w.nonce.drop 8, pack)] := by
    unfold EncWriter.flushPack
    rw [framesOf_append]
    rfl
  have hbc : (w.flushPack pack).blockCount = w.blockCount + 1 := rfl
  have hnn : (w.flushPack pack).nonce =
      putU64LE (w.blockCount % 2 ^ 64) ++ w.nonce.drop 8 := rfl
  refine ⟨?_, ?_, ?_⟩
  · rw [hbc, hfr, List.length_append, List.length_cons, List.length_nil, h1]
  · rw [hnn, drop8_putU64LE, h2]
  · intro i hi
    rw [hfr] at hi ⊢
    rw [List.length_append, List.length_cons, List.length_nil] at hi
    rcases Nat.lt_or_ge i (framesOf w.out).length with hlt | hge
    · rw [List.getD_append _ _ _ _ hlt]
      exact h3 i hlt
    · have hieq : i = (framesOf w.out).length := by omega
      subst hieq
      rw [List.getD_append_right _ _ _ _ hge]
      simp only [Nat.sub_self, List.getD_cons_zero]
      rw [h1, h2]

theorem nonceOK_flushFull (fuel : Nat) (w : EncWriter) (h : nonceOK w) :
    nonceOK (EncWriter.flushFull fuel w) := by
  induction fuel generalizing w with
  | zero => exact h
  | succ n ih =>
    unfold EncWriter.flushFull
    split
    · exact ih _ (nonceOK_flushPack _ _ h)
    · exact h

theorem nonceOK_write (w : EncWriter) (p : List Nat) (h : nonceOK w) :
    nonceOK (w.write p).2 := by
  unfold EncWriter.write
  exact nonceOK_flushFull _ _ (nonceOK_emitHeader _ h)

theorem nonceOK_closeFlush (fuel : Nat) (w : EncWriter) (h : nonceOK w) :
    nonceOK (EncWriter.closeFlush fuel w) := by
  induction fuel generalizing w with
  | zero => exact h
  | succ n ih =>
    unfold EncWriter.closeFlush
    split
    · exact ih _ (nonceOK_flushPack _ _ h)
    · exact h

theorem nonceOK_close (w : EncWriter) (h : nonceOK w) : nonceOK w.close := by
  unfold EncWriter.close
  exact nonceOK_closeFlush _ _ (nonceOK_emitHeader _ h)

theorem nonceOK_readFromLoop (fuel : Nat) (w : EncWriter) (src : List Nat)
    (n : Nat) (nprev : Int) (h : nonceOK w) :
    nonceOK (EncWriter.readFromLoop fuel w src n nprev).2.2 := by
  induction fuel generalizing w src n nprev with
  | zero => exact h
  | succ f ih =>
    unfold EncWriter.readFromLoop
    dsimp only
    split
    · exact h
    · split
      · split
        · exact nonceOK_flushPack _ _ h
        · exact h
      · split
        · exact ih _ _ _ _ (nonceOK_flushPack _ _ h)
        · exact ih _ _ _ _ h

theorem nonceOK_readFrom (w : EncWriter) (src : List Nat) (h : nonceOK w) :
    nonceOK (w.readFrom src).2.2 := by
  unfold EncWriter.readFrom
  dsimp only
  split
  · exact nonceOK_emitHeader _ h
  · exact nonceOK_readFromLoop _ _ _ _ _ (nonceOK_emitHeader _ h)

theorem nonceOK_mk (bs : Nat) : nonceOK (mkEncWriter bs) := by
  refine ⟨rfl, rfl, ?_⟩
  intro i hi
  simp [mkEncWriter, framesOf] at hi

theorem nonceOK_runEncOps (ops : List EncOp) (w : EncWriter) (h : nonceOK w) :
    nonceOK (runEncOps ops w) := by
  induction ops generalizing w with
  | nil => exact h
  | cons op rest ih =>
    cases op with
    | write p => exact ih _ (nonceOK_write _ _ h)
    | close => exact ih _ (nonceOK_close _ h)
    | readFrom src => exact ih _ (nonceOK_readFrom _ _ h)

/-- C4: over any run of caller operations on a fresh encryption writer
with at most 2^64 emitted frames, the i-th emitted frame (zero based)
carries a nonce whose first 8 bytes are the little endian encoding of
i, and all 12 byte nonces of the object are pairwise distinct. -/
theorem C4_nonce_discipline (ops : List EncOp) (bs : Nat)
    (hlen : (framesOf (runEncOps ops (mkEncWriter bs)).out).length ≤ 2 ^ 64) :
    (∀ i, i < (framesOf (runEncOps ops (mkEncWriter bs)).out).length →
      ((framesOf (runEncOps ops (mkEncWriter bs)).out).getD i ([], [])).1.take 8 =
        putU64LE i) ∧
    (∀ i j, i < (framesOf (runEncOps ops (mkEncWriter bs)).out).length →
      j < (framesOf (runEncOps ops (mkEncWriter bs)).out).length → i ≠ j →
      ((framesOf (runEncOps ops (mkEncWriter bs)).out).getD i ([], [])).1 ≠
        ((framesOf (runEncOps ops (mkEncWriter bs)).out).getD j ([], [])).1) := by
  obtain ⟨-, -, h3⟩ := nonceOK_runEncOps ops (mkEncWriter bs) (nonceOK_mk bs)
  constructor
  · intro i hi
    rw [h3 i hi, take8_putU64LE, Nat.mod_eq_of_lt (by omega)]
  · intro i j hi hj hij habs
    rw [h3 i hi, h3 j hj, Nat.mod_eq_of_lt (by omega), Nat.mod_eq_of_lt (by omega)]
      at habs
    have : putU64LE i = putU64LE j := by
      have := congrArg (List.take 8) habs
      rwa [take8_putU64LE, take8_putU64LE] at this
    exact hij (putU64LE_inj i j (by omega) (by omega) this)

/-- C4 witness: a run writing three bytes with block size two and
closing produces two frames with the expected nonces. -/
theorem C4_nonce_discipline_witness :
    ((framesOf (runEncOps [.write [1, 2, 3], .close] (mkEncWriter 2)).out).length ≤ 2 ^ 64) ∧
    ((∀ i, i < (framesOf (runEncOps [.write [1, 2, 3], .close] (mkEncWriter 2)).out).length →
      ((framesOf (runEncOps [.write [1, 2, 3], .close] (mkEncWriter 2)).out).getD i ([], [])).1.take 8 =
        putU64LE i) ∧
    (∀ i j, i < (framesOf (runEncOps [.write [1, 2, 3], .close] (mkEncWriter 2)).out).length →
      j < (framesOf (runEncOps [.write [1, 2, 3], .close] (mkEncWriter 2)).out).length → i ≠ j →
      ((framesOf (runEncOps [.write [1, 2, 3], .close] (mkEncWriter 2)).out).getD i ([], [])).1 ≠
        ((framesOf (runEncOps [.write [1, 2, 3], .close] (mkEncWriter 2)).out).getD j ([], [])).1)) :=
  ⟨by decide, C4_nonce_discipline [.write [1, 2, 3], .close] 2 (by decide)⟩

theorem framesOf_emitHeader (w : EncWriter) :
    framesOf w.emitHeaderIfNeeded.out = framesOf w.out := by
  unfold EncWriter.emitHeaderIfNeeded
  split
  · rfl
  · rw [framesOf_append]
    show framesOf w.out ++ [] = framesOf w.out
    rw [List.append_nil]

theorem closeFlush_packs (fuel : Nat) :
    ∀ w : EncWriter, w.rbuf.length ≤ fuel → 1 ≤ w.maxBlockSize →
      ((framesOf (EncWriter.closeFlush fuel w).out).map Prod.snd =
        (framesOf w.out).map Prod.snd ++ chunksOf w.maxBlockSize w.rbuf) ∧
      (EncWriter.closeFlush fuel w).rbuf = [] := by
  induction fuel with
  | zero =>
    intro w hf hbs
    have hnil : w.rbuf = [] := List.eq_nil_of_length_eq_zero (Nat.le_zero.mp hf)
    constructor
    · rw [hnil, chunksOf_nil, List.append_nil]
      rfl
    · exact hnil
  | succ f ih =>
    intro w hf hbs
    by_cases h0 : 0 < w.rbuf.length
    · have hstep : EncWriter.closeFlush (f + 1) w =
          EncWriter.closeFlush f
            (EncWriter.flushPack
              { w with rbuf := w.rbuf.drop (min w.rbuf.length w.maxBlockSize) }
              (w.rbuf.take (min w.rbuf.length w.maxBlockSize))) := by
        conv_lhs => rw [EncWriter.closeFlush]
        rw [if_pos h0]
      set n := min w.rbuf.length w.maxBlockSize with hn
      set w1 := EncWriter.flushPack { w with rbuf := w.rbuf.drop n }
        (w.rbuf.take n) with hw1
      have hw1rbuf : w1.rbuf = w.rbuf.drop n := rfl
      have hw1bs : w1.maxBlockSize = w.maxBlockSize := rfl
      have hw1out : (framesOf w1.out).map Prod.snd =
          (framesOf w.out).map Prod.snd ++ [w.rbuf.take n] := by
        rw [hw1]
        unfold EncWriter.flushPack
        rw [framesOf_append]
        rw [List.map_append]
        rfl
      have hn1 : 1 ≤ n := by omega
      have hflen : w1.rbuf.length ≤ f := by
        rw [hw1rbuf, List.length_drop]
        omega
      obtain ⟨ih1, ih2⟩ := ih w1 hflen (hw1bs ▸ hbs)
      constructor
      · rw [hstep, ih1, hw1out, hw1rbuf, hw1bs, List.append_assoc]
        congr 1
        have hne : w.rbuf ≠ [] := by
          intro hh
          rw [hh] at h0
          simp at h0
        rw [chunksOf_cons _ hbs _ hne]
        rcases le_or_lt w.maxBlockSize w.rbuf.length with hle | hlt
        · rw [show n = w.maxBlockSize from min_eq_right hle]
          rfl
        · rw [show n = w.rbuf.length from min_eq_left (le_of_lt hlt),
            List.take_length, List.drop_length,
            List.take_of_length_le (le_of_lt hlt),
            List.drop_eq_nil_of_le (le_of_lt hlt)]
          rfl
      · rw [hstep]
        exact ih2
    · have hnil : w.rbuf = [] := List.eq_nil_of_length_eq_zero (by omega)
      have hstep : EncWriter.closeFlush (f + 1) w = w := by
        conv_lhs => rw [EncWriter.closeFlush]
        rw [if_neg h0]
      rw [hstep, hnil, chunksOf_nil, List.append_nil]
      exact ⟨rfl, rfl⟩

/-- C5 (amended): Close flushes the remaining rbuf bytes as the
consecutive block sized chunks of the buffer; the final emitted frame
holds fewer than block size plaintext bytes exactly when the buffered
byte count is not a multiple of the block size (when it is a nonzero
multiple, the final frame holds exactly block size bytes); no frame is
emitted when the buffer is empty; closing a fresh writer renders
exactly the serialized header, which is 36 bytes. -/
theorem C5_close_residue (w : EncWriter) (hbs : 1 ≤ w.maxBlockSize) :
    ((framesOf w.close.out).map Prod.snd =
      (framesOf w.out).map Prod.snd ++ chunksOf w.maxBlockSize w.rbuf) ∧
    (w.rbuf = [] →
      (framesOf w.close.out).map Prod.snd = (framesOf w.out).map Prod.snd) ∧
    (w.rbuf ≠ [] → ((chunksOf w.maxBlockSize w.rbuf).getLast?).isSome) ∧
    (∀ lst, (chunksOf w.maxBlockSize w.rbuf).getLast? = some lst →
      (lst.length < w.maxBlockSize ↔ w.rbuf.length % w.maxBlockSize ≠ 0)) ∧
    (∀ hdr sealFn,
      outBytes hdr sealFn (EncWriter.close (mkEncWriter w.maxBlockSize)).out = hdr) ∧
    (∀ keyHash cipher, (keyHash : List Nat).length = 8 →
      (generateHeader keyHash cipher w.maxBlockSize).length = 36) := by
  have hemitr : w.emitHeaderIfNeeded.rbuf = w.rbuf := by
    unfold EncWriter.emitHeaderIfNeeded
    split <;> rfl
  have hemitb : w.emitHeaderIfNeeded.maxBlockSize = w.maxBlockSize := by
    unfold EncWriter.emitHeaderIfNeeded
    split <;> rfl
  have hmain := closeFlush_packs w.emitHeaderIfNeeded.rbuf.length w.emitHeaderIfNeeded
    le_rfl (hemitb ▸ hbs)
  have hclose : (framesOf w.close.out).map Prod.snd =
      (framesOf w.out).map Prod.snd ++ chunksOf w.maxBlockSize w.rbuf := by
    have h1 := hmain.1
    rw [framesOf_emitHeader, hemitb] at h1
    rw [show chunksOf w.maxBlockSize w.emitHeaderIfNeeded.rbuf =
      chunksOf w.maxBlockSize w.rbuf from by rw [hemitr]] at h1
    exact h1
  refine ⟨hclose, ?_, ?_, ?_, ?_, ?_⟩
  · intro hnil
    rw [hclose, hnil, chunksOf_nil, List.append_nil]
  · intro hne
    exact List.getLast?_isSome.mpr (chunksOf_ne_nil _ hbs _ hne)
  · intro lst hl
    have hlen := chunksOf_getLast_length _ hbs _ lst hl
    have hmlt : w.rbuf.length % w.maxBlockSize < w.maxBlockSize :=
      Nat.mod_lt _ (by omega)
    by_cases hmod : w.rbuf.length % w.maxBlockSize = 0
    · rw [if_pos hmod] at hlen
      constructor <;> intro <;> omega
    · rw [if_neg hmod] at hlen
      constructor <;> intro <;> omega
  · intro hdr sealFn
    simp [EncWriter.close, mkEncWriter, EncWriter.emitHeaderIfNeeded,
      EncWriter.closeFlush, outBytes]
  · intro keyHash cipher hk
    simp only [generateHeader, putU16BE, putU32BE, List.length_append,
      List.length_cons, List.length_nil, List.length_take, List.length_replicate,
      hk]
    omega

/-- C5 witness: a fresh writer with block size 4 satisfies the block
size hypothesis. -/
theorem C5_close_residue_witness :
    (1 ≤ (mkEncWriter 4).maxBlockSize) ∧
    (((framesOf (mkEncWriter 4).close.out).map Prod.snd =
      (framesOf (mkEncWriter 4).out).map Prod.snd ++
        chunksOf (mkEncWriter 4).maxBlockSize (mkEncWriter 4).rbuf) ∧
    ((mkEncWriter 4).rbuf = [] →
      (framesOf (mkEncWriter 4).close.out).map Prod.snd =
        (framesOf (mkEncWriter 4).out).map Prod.snd) ∧
    ((mkEncWriter 4).rbuf ≠ [] →
      ((chunksOf (mkEncWriter 4).maxBlockSize (mkEncWriter 4).rbuf).getLast?).isSome) ∧
    (∀ lst, (chunksOf (mkEncWriter 4).maxBlockSize (mkEncWriter 4).rbuf).getLast? = some lst →
      (lst.length < (mkEncWriter 4).maxBlockSize ↔
        (mkEncWriter 4).rbuf.length % (mkEncWriter 4).maxBlockSize ≠ 0)) ∧
    (∀ hdr sealFn,
      outBytes hdr sealFn (EncWriter.close (mkEncWriter (mkEncWriter 4).maxBlockSize)).out = hdr) ∧
    (∀ keyHash cipher, (keyHash : List Nat).length = 8 →
      (generateHeader keyHash cipher (mkEncWriter 4).maxBlockSize).length = 36)) :=
  ⟨by decide, C5_close_residue (mkEncWriter 4) (by decide)⟩

/-- C5 counterexample: with block size 4, after writing exactly 4 bytes
the internal buffer holds a nonzero residue of 4 bytes, yet the one
frame Close emits carries exactly 4 = block size plaintext bytes, not
fewer, refuting the claimed equivalence. -/
theorem C5_close_full_block_counterexample :
    (((mkEncWriter 4).write [1, 2, 3, 4]).2.rbuf = [1, 2, 3, 4] ∧
     ((mkEncWriter 4).write [1, 2, 3, 4]).2.rbuf ≠ []) ∧
    (framesOf ((mkEncWriter 4).write [1, 2, 3, 4]).2.close.out).map Prod.snd =
      [[1, 2, 3, 4]] ∧
    ¬ (([1, 2, 3, 4] : List Nat).length < 4) := by
  decide

/-- C6: ReadFrom on a writer whose internal buffer holds unflushed
bytes returns ErrMixedMethods, consumes nothing from the source (the
returned byte count is 0 and the loop is never entered), and leaves the
writer unchanged apart from the header having been emitted. -/
theorem C6_readfrom_mixed_methods (w : EncWriter) (src : List Nat)
    (h : w.rbuf ≠ []) :
    w.readFrom src = (0, some .mixedMethods, w.emitHeaderIfNeeded) ∧
    w.emitHeaderIfNeeded.rbuf = w.rbuf ∧
    w.emitHeaderIfNeeded.blockCount = w.blockCount ∧
    w.emitHeaderIfNeeded.nonce = w.nonce ∧
    w.emitHeaderIfNeeded.maxBlockSize = w.maxBlockSize := by
  have hr : w.emitHeaderIfNeeded.rbuf = w.rbuf := by
    unfold EncWriter.emitHeaderIfNeeded
    split <;> rfl
  have h0 : 0 < w.emitHeaderIfNeeded.rbuf.length := by
    rw [hr]
    exact List.length_pos.mpr h
  refine ⟨?_, hr, ?_, ?_, ?_⟩
  · unfold EncWriter.readFrom
    dsimp only
    rw [if_pos h0]
  · unfold EncWriter.emitHeaderIfNeeded
    split <;> rfl
  · unfold EncWriter.emitHeaderIfNeeded
    split <;> rfl
  · unfold EncWriter.emitHeaderIfNeeded
    split <;> rfl

/-- C6 witness: a writer that buffered two bytes via Write refuses a
concrete ReadFrom with ErrMixedMethods. -/
theorem C6_readfrom_mixed_methods_witness :
    (((mkEncWriter 4).write [1, 2]).2.rbuf ≠ []) ∧
    (((mkEncWriter 4).write [1, 2]).2.readFrom [9, 9, 9] =
      (0, some .mixedMethods, ((mkEncWriter 4).write [1, 2]).2.emitHeaderIfNeeded) ∧
    ((mkEncWriter 4).write [1, 2]).2.emitHeaderIfNeeded.rbuf =
      ((mkEncWriter 4).write [1, 2]).2.rbuf ∧
    ((mkEncWriter 4).write [1, 2]).2.emitHeaderIfNeeded.blockCount =
      ((mkEncWriter 4).write [1, 2]).2.blockCount ∧
    ((mkEncWriter 4).write [1, 2]).2.emitHeaderIfNeeded.nonce =
      ((mkEncWriter 4).write [1, 2]).2.nonce ∧
    ((mkEncWriter 4).write [1, 2]).2.emitHeaderIfNeeded.maxBlockSize =
      ((mkEncWriter 4).write [1, 2]).2.maxBlockSize) :=
  ⟨by decide, C6_readfrom_mixed_methods ((mkEncWriter 4).write [1, 2]).2 [9, 9, 9] (by decide)⟩

/-! ## Characterization of the sort.Search loop -/

theorem ssAux_spec (f : Nat → Bool) (nn : Nat)
    (hmono : ∀ a b, a ≤ b → b < nn → f a = true → f b = true) :
    ∀ fuel i j, j - i ≤ fuel → i ≤ j → j ≤ nn →
      (∀ k, k < i → f k = false) → (∀ k, j ≤ k → k < nn → f k = true) →
      (i ≤ ssAux f fuel i j ∧ ssAux f fuel i j ≤ j ∧
       (∀ k, k < ssAux f fuel i j → f k = false) ∧
       (ssAux f fuel i j < nn → f (ssAux f fuel i j) = true)) := by
  intro fuel
  induction fuel with
  | zero =>
    intro i j hd hij hjn hlow hhigh
    have hieq : i = j := by omega
    subst hieq
    exact ⟨le_rfl, le_rfl, hlow, fun hlt => hhigh i le_rfl hlt⟩
  | succ d ih =>
    intro i j hd hij hjn hlow hhigh
    by_cases hlt : i < j
    · rw [ssAux, if_pos hlt]
      dsimp only
      by_cases hfm : f ((i + j) / 2) = true
      · rw [if_pos hfm]
        have h1 : (i + j) / 2 < j := by omega
        have h2 : i ≤ (i + j) / 2 := by omega
        have := ih i ((i + j) / 2) (by omega) h2 (by omega) hlow
          (fun k hk hkn => hmono ((i + j) / 2) k hk hkn hfm)
        exact ⟨this.1, le_trans this.2.1 (le_of_lt h1), this.2.2⟩
      · rw [if_neg hfm]
        have h1 : (i + j) / 2 < j := by omega
        have h2 : i ≤ (i + j) / 2 := by omega
        have hlow2 : ∀ k, k < (i + j) / 2 + 1 → f k = false := by
          intro k hk
          rcases Nat.lt_or_ge k i with hki | hki
          · exact hlow k hki
          · cases hb : f k with
            | false => rfl
            | true => exact absurd (hmono k ((i + j) / 2) (by omega) (by omega) hb) hfm
        have := ih ((i + j) / 2 + 1) j (by omega) (by omega) hjn hlow2 hhigh
        exact ⟨le_trans (by omega) this.1, this.2.1, this.2.2⟩
    · rw [ssAux, if_neg hlt]
      have hieq : i = j := by omega
      subst hieq
      exact ⟨le_rfl, le_rfl, hlow, fun h => hhigh i le_rfl h⟩

/-- Uniqueness form of the sort.Search characterization: the result is
the (unique) r below which f is false and at which f is true. -/
theorem sortSearch_eq (nn : Nat) (f : Nat → Bool)
    (hmono : ∀ a b, a ≤ b → b < nn → f a = true → f b = true)
    (r : Nat) (hr : r ≤ nn)
    (hlow : ∀ k, k < r → f k = false)
    (hhit : r < nn → f r = true) : sortSearch nn f = r := by
  obtain ⟨h1, h2, h3, h4⟩ := ssAux_spec f nn hmono nn 0 nn (by omega) (by omega)
    le_rfl (by omega) (by intro k hk hkn; omega)
  unfold sortSearch
  rcases Nat.lt_trichotomy (ssAux f nn 0 nn) r with hlt | heq | hgt
  · have hfalse := hlow _ hlt
    have htrue := h4 (by omega)
    rw [htrue] at hfalse
    cases hfalse
  · exact heq
  · have hfalse := h3 _ hgt
    have htrue := hhit (by omega)
    rw [htrue] at hfalse
    cases hfalse

/-! ## Step lemmas for the underlying reader of the compress.Reader -/

theorem readFullRaw_spec (st : RState) (m n : Nat)
    (hpos : st.pos = (m : Int)) (hle : m + n ≤ st.data.length) :
    st.readFullRaw n =
      (.ok ((st.data.drop m).take n), { st with pos := ((m + n : Nat) : Int) }) := by
  unfold RState.readFullRaw
  rw [hpos]
  rw [if_pos (by exact_mod_cast hle)]
  rw [Int.toNat_natCast]
  norm_cast

theorem rawSeek_end_spec (st : RState) (k : Nat) (hk : k ≤ st.data.length) :
    st.rawSeek (-(k : Int)) .seekEnd =
      (.ok ((st.data.length - k : Nat) : Int),
       { st with pos := ((st.data.length - k : Nat) : Int) }) := by
  unfold RState.rawSeek
  dsimp only
  rw [show (st.data.length : Int) + (-(k : Int)) = ((st.data.length - k : Nat) : Int) from
    by omega]
  rw [if_neg (by omega)]

theorem rawSeek_start_spec (st : RState) (m : Nat) :
    st.rawSeek (m : Int) .start = (.ok (m : Int), { st with pos := (m : Int) }) := by
  unfold RState.rawSeek
  dsimp only
  rw [if_neg (by omega)]

theorem copyNRaw_spec (st : RState) (m n : Nat)
    (hpos : st.pos = (m : Int)) (hn : 0 < n) (hle : m + n ≤ st.data.length) :
    st.copyNRaw (n : Int) =
      (.ok ((st.data.drop m).take n), { st with pos := ((m + n : Nat) : Int) }) := by
  unfold RState.copyNRaw
  rw [hpos]
  rw [if_neg (by omega)]
  rw [if_pos (by exact_mod_cast hle)]
  rw [Int.toNat_natCast, Int.toNat_natCast]
  norm_cast

theorem parse_of_parsed (st : RState) (h : st.trailerParsed = true) :
    st.parseTrailerIfNeeded = (.ok (), st) := by
  unfold RState.parseTrailerIfNeeded
  rw [if_pos h]

/-! ## Offset and index lemmas for writer-produced objects -/

theorem rawAt_zero (chunks : List (List Nat)) : rawAt chunks 0 = 0 := rfl

theorem zipAt_zero (A : Algorithm) (chunks : List (List Nat)) :
    zipAt A chunks 0 = headerSize := rfl

theorem rawAt_succ (chunks : List (List Nat)) (k : Nat) (hk : k < chunks.length) :
    rawAt chunks (k + 1) = rawAt chunks k + (chunks.getD k []).length := by
  unfold rawAt
  rw [List.take_succ, List.getElem?_eq_getElem hk,
    List.getD_eq_getElem?_getD, List.getElem?_eq_getElem hk]
  simp only [Option.toList_some, List.map_append, List.sum_append, List.map_cons,
    List.map_nil, List.sum_cons, List.sum_nil, Option.getD_some]
  omega

theorem zipAt_succ (A : Algorithm) (chunks : List (List Nat)) (k : Nat)
    (hk : k < chunks.length) :
    zipAt A chunks (k + 1) =
      zipAt A chunks k + (A.encode (chunks.getD k [])).length := by
  unfold zipAt
  have hk2 : k < (chunks.map A.encode).length := by
    rw [List.length_map]; exact hk
  rw [List.take_succ, List.getElem?_eq_getElem hk2,
    List.getD_eq_getElem?_getD, List.getElem?_eq_getElem hk]
  simp only [Option.toList_some, List.map_append, List.sum_append, List.map_cons,
    List.map_nil, List.sum_cons, List.sum_nil, Option.getD_some,
    List.getElem_map]
  omega

theorem sum_map_take_mono (l : List (List Nat)) (k m : Nat) (hkm : k ≤ m) :
    ((l.take k).map List.length).sum ≤ ((l.take m).map List.length).sum := by
  have h1 : l.take k ++ (l.take m).drop k = l.take m := by
    have h2 := List.take_append_drop k (l.take m)
    rwa [List.take_take, min_eq_left hkm] at h2
  calc ((l.take k).map List.length).sum
      ≤ ((l.take k).map List.length).sum + (((l.take m).drop k).map List.length).sum :=
        Nat.le_add_right _ _
    _ = ((l.take m).map List.length).sum := by
        rw [← List.sum_append, ← List.map_append, h1]

theorem sum_map_take_all (l : List (List Nat)) :
    ((l.take l.length).map List.length).sum = l.flatten.length := by
  rw [List.take_length, List.length_flatten]

theorem rawAt_mono (chunks : List (List Nat)) (k l : Nat) (hkl : k ≤ l) :
    rawAt chunks k ≤ rawAt chunks l :=
  sum_map_take_mono chunks k l hkl

theorem zipAt_mono (A : Algorithm) (chunks : List (List Nat)) (k l : Nat)
    (hkl : k ≤ l) : zipAt A chunks k ≤ zipAt A chunks l :=
  Nat.add_le_add_left (sum_map_take_mono (chunks.map A.encode) k l hkl) headerSize

theorem rawAt_top (chunks : List (List Nat)) :
    rawAt chunks chunks.length = chunks.flatten.length :=
  sum_map_take_all chunks

theorem zipAt_top (A : Algorithm) (chunks : List (List Nat)) :
    zipAt A chunks chunks.length =
      headerSize + ((chunks.map A.encode).flatten).length := by
  unfold zipAt
  rw [show chunks.length = (chunks.map A.encode).length from (List.length_map _ _).symm,
    sum_map_take_all]

theorem compressIndexN_empty (A : Algorithm) (cs : Nat) :
    compressIndexN A cs [] = [(0, headerSize), (0, headerSize)] := rfl

theorem compressIndexN_eq (A : Algorithm) (cs : Nat) (p : List Nat)
    (hne : chunksOf cs p ≠ []) :
    compressIndexN A cs p =
      (List.range ((chunksOf cs p).length + 1)).map fun k =>
        (rawAt (chunksOf cs p) k, zipAt A (chunksOf cs p) k) := by
  unfold compressIndexN
  rw [if_neg]
  simpa using hne

theorem length_compressIndexN (A : Algorithm) (cs : Nat) (p : List Nat)
    (hne : chunksOf cs p ≠ []) :
    (compressIndexN A cs p).length = (chunksOf cs p).length + 1 := by
  rw [compressIndexN_eq A cs p hne, List.length_map, List.length_range]

theorem two_le_length_compressIndexN (A : Algorithm) (cs : Nat) (p : List Nat)
    (hcs : 1 ≤ cs) : 2 ≤ (compressIndexN A cs p).length := by
  by_cases hp : p = []
  · subst hp
    rw [compressIndexN_empty]
    decide
  · have hne : chunksOf cs p ≠ [] := chunksOf_ne_nil cs hcs p hp
    rw [length_compressIndexN A cs p hne]
    have : 0 < (chunksOf cs p).length := List.length_pos.mpr hne
    omega

theorem compressIndexN_get? (A : Algorithm) (cs : Nat) (p : List Nat)
    (hne : chunksOf cs p ≠ []) (k : Nat) (hk : k ≤ (chunksOf cs p).length) :
    (compressIndexN A cs p).get? k =
      some (rawAt (chunksOf cs p) k, zipAt A (chunksOf cs p) k) := by
  rw [compressIndexN_eq A cs p hne, List.get?_eq_getElem?, List.getElem?_map,
    List.getElem?_range (by omega : k < (chunksOf cs p).length + 1)]
  rfl

theorem indexN_bounds (A : Algorithm) (cs : Nat) (p : List Nat) (hcs : 1 ≤ cs) :
    ∀ r ∈ compressIndexN A cs p,
      r.1 ≤ p.length ∧ r.2 ≤ headerSize + (objBody A cs p).length := by
  by_cases hp : p = []
  · subst hp
    rw [compressIndexN_empty]
    intro r hr
    rcases List.mem_cons.mp hr with h | h
    · subst h
      exact ⟨Nat.zero_le _, Nat.le_add_right _ _⟩
    · rcases List.mem_cons.mp h with h2 | h2
      · subst h2
        exact ⟨Nat.zero_le _, Nat.le_add_right _ _⟩
      · cases h2
  · have hne : chunksOf cs p ≠ [] := chunksOf_ne_nil cs hcs p hp
    rw [compressIndexN_eq A cs p hne]
    intro r hr
    obtain ⟨k, hkmem, hkr⟩ := List.mem_map.mp hr
    have hk : k < (chunksOf cs p).length + 1 := List.mem_range.mp hkmem
    subst hkr
    constructor
    · calc rawAt (chunksOf cs p) k
          ≤ rawAt (chunksOf cs p) (chunksOf cs p).length :=
            rawAt_mono _ _ _ (by omega)
        _ = (chunksOf cs p).flatten.length := rawAt_top _
        _ = p.length := by rw [chunksOf_flatten cs hcs p]
    · calc zipAt A (chunksOf cs p) k
          ≤ zipAt A (chunksOf cs p) (chunksOf cs p).length :=
            zipAt_mono _ _ _ _ (by omega)
        _ = headerSize + (objBody A cs p).length := zipAt_top _ _

theorem length_objHeader (algoId : Nat) : (objHeader algoId).length = 12 := by
  simp [objHeader, compressMagic]

theorem recsBytes_length (l : List (Nat × Nat)) :
    ((l.map fun r => putU64BE r.1 ++ putU64BE r.2).flatten).length = 16 * l.length := by
  induction l with
  | nil => rfl
  | cons x xs ih =>
    simp only [List.map_cons, List.flatten_cons, List.length_append, ih,
      List.length_cons, List.length_append, length_putU64BE]
    omega

theorem length_objIndexBytes (A : Algorithm) (cs : Nat) (p : List Nat) :
    (objIndexBytes A cs p).length = 16 * (compressIndexN A cs p).length :=
  recsBytes_length _

theorem length_objTrailer (A : Algorithm) (cs : Nat) (p : List Nat) :
    (objTrailer A cs p).length = 16 := by
  simp [objTrailer, trailerMagic, length_putU64BE]

theorem length_compressObject (A : Algorithm) (algoId cs : Nat) (p : List Nat) :
    (compressObject A algoId cs p).length =
      12 + (objBody A cs p).length + 16 * (compressIndexN A cs p).length + 16 := by
  unfold compressObject
  simp only [List.length_append, length_objHeader, length_objIndexBytes,
    length_objTrailer]

theorem take8_putU64BE (n : Nat) (rest : List Nat) :
    (putU64BE n ++ rest).take 8 = putU64BE n := rfl

theorem obj_take_header (A : Algorithm) (algoId cs : Nat) (p : List Nat) :
    ((compressObject A algoId cs p).drop 0).take 12 = objHeader algoId := by
  rw [List.drop_zero]
  unfold compressObject
  rw [List.append_assoc, List.append_assoc, ← length_objHeader algoId]
  exact List.take_left _ _

theorem obj_drop_trailer (A : Algorithm) (algoId cs : Nat) (p : List Nat) :
    (compressObject A algoId cs p).drop
      (12 + (objBody A cs p).length + 16 * (compressIndexN A cs p).length) =
    objTrailer A cs p := by
  unfold compressObject
  rw [show 12 + (objBody A cs p).length + 16 * (compressIndexN A cs p).length =
      ((objHeader algoId ++ objBody A cs p) ++ objIndexBytes A cs p).length from by
    simp only [List.length_append, length_objHeader, length_objIndexBytes]]
  exact List.drop_left _ _

theorem obj_drop_index (A : Algorithm) (algoId cs : Nat) (p : List Nat) :
    (compressObject A algoId cs p).drop (12 + (objBody A cs p).length) =
      objIndexBytes A cs p ++ objTrailer A cs p := by
  unfold compressObject
  rw [List.append_assoc (objHeader algoId ++ objBody A cs p)]
  rw [show 12 + (objBody A cs p).length =
      (objHeader algoId ++ objBody A cs p).length from by
    simp only [List.length_append, length_objHeader]]
  exact List.drop_left _ _

theorem parseIndexLoop_ok (recs : List (Nat × Nat)) :
    ∀ st : RState, (∀ r ∈ recs, r.1 < 2 ^ 63 ∧ r.2 < 2 ^ 63) →
      RState.parseIndexLoop recs.length
        ((recs.map fun r => putU64BE r.1 ++ putU64BE r.2).flatten)
        { rawOff := -1, zipOff := -1 } st =
      (.ok (), { st with index := st.index ++ recs.map toRec }) := by
  induction recs with
  | nil =>
    intro st hb
    simp only [List.map_nil, List.append_nil]
    rfl
  | cons r rest ih =>
    intro st hb
    obtain ⟨hr1, hr2⟩ := hb r (List.mem_cons_self _ _)
    have hbuf : ((r :: rest).map fun q => putU64BE q.1 ++ putU64BE q.2).flatten =
        putU64BE r.1 ++ (putU64BE r.2 ++
          ((rest.map fun q => putU64BE q.1 ++ putU64BE q.2).flatten)) := by
      rw [List.map_cons, List.flatten_cons, List.append_assoc]
    rw [List.length_cons, hbuf]
    unfold RState.parseIndexLoop
    rw [recordUnmarshal_marshal r.1 r.2 _ hr1 hr2]
    dsimp only
    rw [if_neg (by omega), if_neg (by omega)]
    have hdrop : (putU64BE r.1 ++ (putU64BE r.2 ++
        ((rest.map fun q => putU64BE q.1 ++ putU64BE q.2).flatten))).drop
          indexChunkSize =
        (rest.map fun q => putU64BE q.1 ++ putU64BE q.2).flatten := rfl
    rw [hdrop]
    rw [ih { st with index := st.index ++ [{ rawOff := (r.1 : Int), zipOff := (r.2 : Int) }] }
      (fun q hq => hb q (List.mem_cons_of_mem _ hq))]
    rw [List.map_cons]
    rw [List.append_assoc, List.singleton_append]
    rfl

/-- parseTrailerIfNeeded over a fresh reader on a writer-produced
object succeeds and yields exactly the parsed state: the full index,
the chosen algorithm, and the cursor at the first body byte. -/
theorem parse_compressObject (A : Algorithm) (algoId cs : Nat) (p : List Nat)
    (algos : Nat → Option Algorithm)
    (halgos : algos algoId = some A) (hid : algoId < 256) (hcs : 1 ≤ cs)
    (hp : p.length < 2 ^ 63)
    (hL : (compressObject A algoId cs p).length < 2 ^ 63) :
    (mkReader (compressObject A algoId cs p) algos).parseTrailerIfNeeded =
      (.ok (), parsedState A algoId cs p algos) := by
  have hLen := length_compressObject A algoId cs p
  have hN2 := two_le_length_compressIndexN A cs p hcs
  have hrecb : ∀ r ∈ compressIndexN A cs p, r.1 < 2 ^ 63 ∧ r.2 < 2 ^ 63 := by
    intro r hr
    obtain ⟨h1, h2⟩ := indexN_bounds A cs p hcs r hr
    rw [show headerSize = 12 from rfl] at h2
    omega
  unfold RState.parseTrailerIfNeeded
  simp only [mkReader, headerSize, trailerSize, indexChunkSize]
  rw [if_neg (by simp)]
  rw [readFullRaw_spec _ 0 12 rfl
    (by show 0 + 12 ≤ (compressObject A algoId cs p).length; omega)]
  dsimp only
  rw [obj_take_header A algoId cs p]
  rw [show readHeader (objHeader algoId) = .ok (algoId % 256) from rfl]
  dsimp only
  rw [rawSeek_end_spec _ 16
    (by show (16 : Nat) ≤ (compressObject A algoId cs p).length; omega)]
  dsimp only
  rw [readFullRaw_spec _ ((compressObject A algoId cs p).length - 16) 16 rfl
    (by show (compressObject A algoId cs p).length - 16 + 16 ≤
      (compressObject A algoId cs p).length; omega)]
  dsimp only
  rw [show (compressObject A algoId cs p).length - 16 =
    12 + (objBody A cs p).length + 16 * (compressIndexN A cs p).length from by omega]
  rw [obj_drop_trailer A algoId cs p]
  rw [show (objTrailer A cs p).take 16 = objTrailer A cs p from by
    rw [← length_objTrailer A cs p]
    exact List.take_length _]
  rw [show getU64BE ((objTrailer A cs p).take 8) =
      16 * (compressIndexN A cs p).length from by
    unfold objTrailer
    rw [take8_putU64BE, getU64BE_putU64BE_self _ (by
      show indexChunkSize * (compressIndexN A cs p).length < 2 ^ 64
      rw [show indexChunkSize = 16 from rfl]
      omega)]
    rfl]
  rw [Nat.mod_eq_of_lt hid, halgos]
  dsimp only
  rw [show -(((16 * (compressIndexN A cs p).length : Nat) : Int) + ((16 : Nat) : Int)) =
      -(((16 * (compressIndexN A cs p).length + 16 : Nat) : Int)) from by push_cast; ring]
  rw [rawSeek_end_spec _ (16 * (compressIndexN A cs p).length + 16)
    (by show 16 * (compressIndexN A cs p).length + 16 ≤
      (compressObject A algoId cs p).length; omega)]
  dsimp only
  rw [show (compressObject A algoId cs p).length -
      (16 * (compressIndexN A cs p).length + 16) =
      12 + (objBody A cs p).length from by omega]
  rw [readFullRaw_spec _ (12 + (objBody A cs p).length)
    (16 * (compressIndexN A cs p).length) rfl
    (by show 12 + (objBody A cs p).length + 16 * (compressIndexN A cs p).length ≤
      (compressObject A algoId cs p).length; omega)]
  dsimp only
  rw [obj_drop_index A algoId cs p]
  rw [show (objIndexBytes A cs p ++ objTrailer A cs p).take
      (16 * (compressIndexN A cs p).length) = objIndexBytes A cs p from by
    rw [← length_objIndexBytes A cs p]
    exact List.take_left _ _]
  rw [show 16 * (compressIndexN A cs p).length / 16 =
    (compressIndexN A cs p).length from Nat.mul_div_cancel_left _ (by omega)]
  rw [show objIndexBytes A cs p =
    ((compressIndexN A cs p).map fun r => putU64BE r.1 ++ putU64BE r.2).flatten from rfl]
  rw [parseIndexLoop_ok (compressIndexN A cs p) _ hrecb]
  dsimp only
  rw [rawSeek_start_spec _ 12]
  dsimp only
  unfold parsedState
  simp only [headerSize, indexChunkSize, List.nil_append]

/-! ## Evaluation of chunkLookup on parsed indexes -/

theorem ssAux_bounds (f : Nat → Bool) :
    ∀ fuel i j, j - i ≤ fuel → i ≤ j → i ≤ ssAux f fuel i j ∧ ssAux f fuel i j ≤ j := by
  intro fuel
  induction fuel with
  | zero =>
    intro i j hd hij
    exact ⟨le_rfl, hij⟩
  | succ d ih =>
    intro i j hd hij
    by_cases hlt : i < j
    · rw [ssAux, if_pos hlt]
      dsimp only
      by_cases hfm : f ((i + j) / 2) = true
      · rw [if_pos hfm]
        have := ih i ((i + j) / 2) (by omega) (by omega)
        exact ⟨this.1, le_trans this.2 (by omega)⟩
      · rw [if_neg hfm]
        have := ih ((i + j) / 2 + 1) j (by omega) (by omega)
        exact ⟨le_trans (by omega) this.1, this.2⟩
    · rw [ssAux, if_neg hlt]
      exact ⟨le_rfl, by omega⟩

theorem getD_mem_of_lt {α : Type} {l : List α} {k : Nat} (hk : k < l.length) (d : α) :
    l.getD k d ∈ l := by
  rw [List.getD_eq_getElem?_getD, List.getElem?_eq_getElem hk]
  exact List.getElem_mem hk

theorem pIdx_length (A : Algorithm) (cs : Nat) (p : List Nat)
    (hne : chunksOf cs p ≠ []) :
    ((compressIndexN A cs p).map toRec).length = (chunksOf cs p).length + 1 := by
  rw [List.length_map, length_compressIndexN A cs p hne]

theorem pIdx_get? (A : Algorithm) (cs : Nat) (p : List Nat)
    (hne : chunksOf cs p ≠ []) (k : Nat) (hk : k ≤ (chunksOf cs p).length) :
    ((compressIndexN A cs p).map toRec).get? k =
      some { rawOff := ((rawAt (chunksOf cs p) k : Nat) : Int),
             zipOff := ((zipAt A (chunksOf cs p) k : Nat) : Int) } := by
  rw [List.get?_eq_getElem?, List.getElem?_map, ← List.get?_eq_getElem?,
    compressIndexN_get? A cs p hne k hk]
  rfl

theorem pIdx_getD (A : Algorithm) (cs : Nat) (p : List Nat)
    (hne : chunksOf cs p ≠ []) (k : Nat) (hk : k ≤ (chunksOf cs p).length) :
    ((compressIndexN A cs p).map toRec).getD k { rawOff := 0, zipOff := 0 } =
      { rawOff := ((rawAt (chunksOf cs p) k : Nat) : Int),
        zipOff := ((zipAt A (chunksOf cs p) k : Nat) : Int) } := by
  rw [List.getD_eq_getElem?_getD, ← List.get?_eq_getElem?,
    pIdx_get? A cs p hne k hk]
  rfl

theorem zipAt_strict (A : Algorithm) (chunks : List (List Nat)) (j k : Nat)
    (hjk : j < k) (hk : k ≤ chunks.length)
    (henc : ∀ c ∈ chunks, A.encode c ≠ []) :
    zipAt A chunks j < zipAt A chunks k := by
  have hmem : chunks.getD j [] ∈ chunks := getD_mem_of_lt (l := chunks) (by omega) []
  have hlen : 0 < (A.encode (chunks.getD j [])).length :=
    List.length_pos.mpr (henc _ hmem)
  have h1 : zipAt A chunks j < zipAt A chunks (j + 1) := by
    rw [zipAt_succ A chunks j (by omega)]
    omega
  exact lt_of_lt_of_le h1 (zipAt_mono A chunks (j + 1) k (by omega))

theorem rawAt_strict (chunks : List (List Nat)) (j k : Nat)
    (hjk : j < k) (hk : k ≤ chunks.length)
    (hch : ∀ c ∈ chunks, c ≠ []) :
    rawAt chunks j < rawAt chunks k := by
  have hmem : chunks.getD j [] ∈ chunks := getD_mem_of_lt (l := chunks) (by omega) []
  have hlen : 0 < (chunks.getD j []).length :=
    List.length_pos.mpr (hch _ hmem)
  have h1 : rawAt chunks j < rawAt chunks (j + 1) := by
    rw [rawAt_succ chunks j (by omega)]
    omega
  exact lt_of_lt_of_le h1 (rawAt_mono chunks (j + 1) k (by omega))

/-- chunkLookup when the probe offset is at or beyond every key of the
index: sort.Search returns len(index) and the last record is returned
twice. -/
theorem chunkLookup_last (st : RState) (off : Int) (isRaw : Bool) (lst : Record)
    (hlast : st.index.getLast? = some lst)
    (hall : ∀ r ∈ st.index, RState.recKey isRaw r ≤ off) :
    st.chunkLookup off isRaw = .ok (lst, lst) := by
  have hne : st.index ≠ [] := by
    intro h
    rw [h] at hlast
    cases hlast
  have hlen0 : 0 < st.index.length := List.length_pos.mpr hne
  unfold RState.chunkLookup
  dsimp only
  have hss : sortSearch st.index.length
      (fun i => decide (off < RState.recKey isRaw (st.index.getD i { rawOff := 0, zipOff := 0 }))) =
      st.index.length := by
    apply sortSearch_eq
    · intro a b hab hb hfa
      rw [decide_eq_true_eq] at hfa
      have hmem := hall (st.index.getD a { rawOff := 0, zipOff := 0 })
        (getD_mem_of_lt (k := a) (by omega) _)
      omega
    · exact le_rfl
    · intro k hk
      rw [decide_eq_false_iff_not, not_lt]
      exact hall _ (getD_mem_of_lt hk { rawOff := 0, zipOff := 0 })
    · intro h
      exact absurd h (lt_irrefl _)
  rw [hss]
  rw [if_neg (by omega), if_pos rfl]
  rw [show st.index.get? (st.index.length - 1) = some lst from by
    rw [List.get?_eq_getElem?, ← List.getLast?_eq_getElem?]
    exact hlast]

/-- chunkLookup always succeeds on an index of at least two records. -/
theorem chunkLookup_isOk (st : RState) (off : Int) (isRaw : Bool)
    (h2 : 2 ≤ st.index.length) :
    ∃ pr, st.chunkLookup off isRaw = .ok pr := by
  unfold RState.chunkLookup
  dsimp only
  obtain ⟨hlo, hhi⟩ := ssAux_bounds
    (fun i => decide (off < RState.recKey isRaw (st.index.getD i { rawOff := 0, zipOff := 0 })))
    st.index.length 0 st.index.length (by omega) (by omega)
  by_cases h0 : sortSearch st.index.length
      (fun i => decide (off < RState.recKey isRaw (st.index.getD i { rawOff := 0, zipOff := 0 }))) = 0
  · rw [h0]
    rw [if_pos rfl]
    rw [List.get?_eq_getElem?, List.getElem?_eq_getElem (by omega),
      List.get?_eq_getElem?, List.getElem?_eq_getElem (by omega)]
    exact ⟨_, rfl⟩
  · rw [if_neg h0]
    by_cases hn : sortSearch st.index.length
        (fun i => decide (off < RState.recKey isRaw (st.index.getD i { rawOff := 0, zipOff := 0 }))) =
        st.index.length
    · rw [if_pos hn]
      rw [List.get?_eq_getElem?, List.getElem?_eq_getElem (by omega)]
      exact ⟨_, rfl⟩
    · rw [if_neg hn]
      have hlt : sortSearch st.index.length
          (fun i => decide (off < RState.recKey isRaw (st.index.getD i { rawOff := 0, zipOff := 0 }))) <
          st.index.length := by
        unfold sortSearch at hn ⊢
        omega
      rw [List.get?_eq_getElem?, List.getElem?_eq_getElem (by omega),
        List.get?_eq_getElem?, List.getElem?_eq_getElem (by omega)]
      exact ⟨_, rfl⟩

theorem recKey_false (r : Record) : RState.recKey false r = r.zipOff := rfl

theorem recKey_true (r : Record) : RState.recKey true r = r.rawOff := rfl

theorem pIdx_getLast (A : Algorithm) (cs : Nat) (p : List Nat)
    (hne : chunksOf cs p ≠ []) :
    ((compressIndexN A cs p).map toRec).getLast? =
      some { rawOff := ((rawAt (chunksOf cs p) (chunksOf cs p).length : Nat) : Int),
             zipOff := ((zipAt A (chunksOf cs p) (chunksOf cs p).length : Nat) : Int) } := by
  rw [List.getLast?_eq_getElem?, ← List.get?_eq_getElem?, pIdx_length A cs p hne]
  rw [show (chunksOf cs p).length + 1 - 1 = (chunksOf cs p).length from rfl]
  exact pIdx_get? A cs p hne _ le_rfl

theorem pIdx_zip_le_end (A : Algorithm) (cs : Nat) (p : List Nat) (hcs : 1 ≤ cs) :
    ∀ r ∈ (compressIndexN A cs p).map toRec,
      RState.recKey false r ≤
        ((zipAt A (chunksOf cs p) (chunksOf cs p).length : Nat) : Int) := by
  intro r hr
  obtain ⟨q, hq, hqr⟩ := List.mem_map.mp hr
  subst hqr
  obtain ⟨-, h2⟩ := indexN_bounds A cs p hcs q hq
  rw [recKey_false]
  show ((q.2 : Nat) : Int) ≤ _
  have : zipAt A (chunksOf cs p) (chunksOf cs p).length =
      headerSize + (objBody A cs p).length := zipAt_top A (chunksOf cs p)
  rw [this]
  exact_mod_cast h2

theorem pIdx_raw_le (A : Algorithm) (cs : Nat) (p : List Nat) (hcs : 1 ≤ cs)
    (d : Int) (hd : (p.length : Int) ≤ d) :
    ∀ r ∈ (compressIndexN A cs p).map toRec, RState.recKey true r ≤ d := by
  intro r hr
  obtain ⟨q, hq, hqr⟩ := List.mem_map.mp hr
  subst hqr
  obtain ⟨h1, -⟩ := indexN_bounds A cs p hcs q hq
  rw [recKey_true]
  show ((q.1 : Nat) : Int) ≤ d
  calc ((q.1 : Nat) : Int) ≤ (p.length : Int) := by exact_mod_cast h1
    _ ≤ d := hd

/-- chunkLookup by zip offset at the start of chunk j of a
writer-produced object: returns records j and j+1. -/
theorem chunkLookup_zip_mid (A : Algorithm) (cs : Nat) (p : List Nat)
    (st : RState) (j : Nat)
    (hcs : 1 ≤ cs) (hp : p ≠ [])
    (henc : ∀ c ∈ chunksOf cs p, A.encode c ≠ [])
    (hidx : st.index = (compressIndexN A cs p).map toRec)
    (hj : j < (chunksOf cs p).length) :
    st.chunkLookup ((zipAt A (chunksOf cs p) j : Nat) : Int) false =
      .ok ({ rawOff := ((rawAt (chunksOf cs p) j : Nat) : Int),
             zipOff := ((zipAt A (chunksOf cs p) j : Nat) : Int) },
           { rawOff := ((rawAt (chunksOf cs p) (j + 1) : Nat) : Int),
             zipOff := ((zipAt A (chunksOf cs p) (j + 1) : Nat) : Int) }) := by
  have hne := chunksOf_ne_nil cs hcs p hp
  have hlen := pIdx_length A cs p hne
  unfold RState.chunkLookup
  dsimp only
  rw [hidx, hlen]
  have hss : sortSearch ((chunksOf cs p).length + 1)
      (fun i => decide (((zipAt A (chunksOf cs p) j : Nat) : Int) <
        RState.recKey false
          (((compressIndexN A cs p).map toRec).getD i { rawOff := 0, zipOff := 0 }))) =
      j + 1 := by
    apply sortSearch_eq
    · intro a b hab hb hfa
      rw [decide_eq_true_eq] at hfa
      rw [pIdx_getD A cs p hne a (by omega), recKey_false] at hfa
      rw [decide_eq_true_eq, pIdx_getD A cs p hne b (by omega), recKey_false]
      dsimp only at hfa ⊢
      have h1 : zipAt A (chunksOf cs p) j < zipAt A (chunksOf cs p) a := by
        exact_mod_cast hfa
      have h2 : zipAt A (chunksOf cs p) a ≤ zipAt A (chunksOf cs p) b :=
        zipAt_mono A (chunksOf cs p) a b hab
      exact_mod_cast lt_of_lt_of_le h1 h2
    · omega
    · intro k hk
      rw [decide_eq_false_iff_not, pIdx_getD A cs p hne k (by omega), recKey_false,
        not_lt]
      dsimp only
      have : zipAt A (chunksOf cs p) k ≤ zipAt A (chunksOf cs p) j :=
        zipAt_mono A (chunksOf cs p) k j (by omega)
      exact_mod_cast this
    · intro hlt
      rw [decide_eq_true_eq, pIdx_getD A cs p hne (j + 1) (by omega), recKey_false]
      dsimp only
      have : zipAt A (chunksOf cs p) j < zipAt A (chunksOf cs p) (j + 1) :=
        zipAt_strict A (chunksOf cs p) j (j + 1) (by omega) (by omega) henc
      exact_mod_cast this
  rw [hss]
  rw [if_neg (by omega), if_neg (by omega)]
  rw [show j + 1 - 1 = j from rfl]
  rw [pIdx_get? A cs p hne j (by omega), pIdx_get? A cs p hne (j + 1) (by omega)]

/-! ## Loading one chunk -/

theorem drop_append_add (a rest : List Nat) (m : Nat) :
    (a ++ rest).drop (a.length + m) = rest.drop m := by
  induction a with
  | nil => simp
  | cons x xs ih =>
    rw [List.cons_append,
      show (x :: xs).length + m = (xs.length + m) + 1 from by
        rw [List.length_cons]; omega,
      List.drop_succ_cons, ih]

theorem obj_slice_chunk (A : Algorithm) (algoId cs : Nat) (p : List Nat)
    (j : Nat) (hj : j < (chunksOf cs p).length) :
    ((compressObject A algoId cs p).drop (zipAt A (chunksOf cs p) j)).take
      (A.encode ((chunksOf cs p).getD j [])).length =
    A.encode ((chunksOf cs p).getD j []) := by
  have hj2 : j < ((chunksOf cs p).map A.encode).length := by
    rw [List.length_map]; exact hj
  have hassoc : compressObject A algoId cs p =
      objHeader algoId ++ (objBody A cs p ++
        (objIndexBytes A cs p ++ objTrailer A cs p)) := by
    unfold compressObject
    rw [List.append_assoc, List.append_assoc]
  have hzip : zipAt A (chunksOf cs p) j =
      (objHeader algoId).length +
        ((((chunksOf cs p).map A.encode).take j).map List.length).sum := by
    rw [length_objHeader]
    rfl
  rw [hassoc, hzip, drop_append_add]
  have hsplit : objBody A cs p =
      (((chunksOf cs p).map A.encode).take j).flatten ++
        (((chunksOf cs p).map A.encode).drop j).flatten := by
    unfold objBody
    rw [← List.flatten_append, List.take_append_drop]
  rw [hsplit, List.append_assoc]
  rw [show ((((chunksOf cs p).map A.encode).take j).map List.length).sum =
      ((((chunksOf cs p).map A.encode).take j).flatten).length from
    (List.length_flatten _).symm]
  rw [List.drop_left]
  rw [List.drop_eq_getElem_cons hj2, List.flatten_cons, List.append_assoc]
  rw [show ((chunksOf cs p).map A.encode)[j] = A.encode ((chunksOf cs p).getD j []) from by
    rw [List.getElem_map]
    congr 1
    rw [List.getD_eq_getElem?_getD, List.getElem?_eq_getElem hj]
    rfl]
  exact List.take_left _ _

theorem fixZipChunk_mid (A : Algorithm) (algoId cs : Nat) (p : List Nat)
    (st : RState) (j : Nat)
    (hcs : 1 ≤ cs) (hp : p ≠ [])
    (henc : ∀ c ∈ chunksOf cs p, A.encode c ≠ [])
    (hdata : st.data = compressObject A algoId cs p)
    (hidx : st.index = (compressIndexN A cs p).map toRec)
    (hraw : st.rawSeekOffset = ((zipAt A (chunksOf cs p) j : Nat) : Int))
    (hj : j < (chunksOf cs p).length) :
    st.fixZipChunk =
      (.ok (((A.encode ((chunksOf cs p).getD j [])).length : Nat) : Int),
       { st with pos := ((zipAt A (chunksOf cs p) j : Nat) : Int),
                 rawSeekOffset := ((zipAt A (chunksOf cs p) (j + 1) : Nat) : Int),
                 zipSeekOffset := ((rawAt (chunksOf cs p) j : Nat) : Int),
                 isInitialRead := false }) := by
  have hencj : A.encode ((chunksOf cs p).getD j []) ≠ [] :=
    henc _ (getD_mem_of_lt hj [])
  have hlenpos : 0 < (A.encode ((chunksOf cs p).getD j [])).length :=
    List.length_pos.mpr hencj
  unfold RState.fixZipChunk
  rw [hraw, chunkLookup_zip_mid A cs p st j hcs hp henc hidx hj]
  dsimp only
  rw [show ((zipAt A (chunksOf cs p) (j + 1) : Nat) : Int) -
      ((zipAt A (chunksOf cs p) j : Nat) : Int) =
      (((A.encode ((chunksOf cs p).getD j [])).length : Nat) : Int) from by
    rw [zipAt_succ A (chunksOf cs p) j hj]
    push_cast
    ring]
  rw [if_neg (by omega)]
  rw [rawSeek_start_spec st (zipAt A (chunksOf cs p) j)]

theorem readZipChunk_mid (A : Algorithm) (algoId cs : Nat) (p : List Nat)
    (st : RState) (j : Nat)
    (hcs : 1 ≤ cs) (hp : p ≠ [])
    (henc : ∀ c ∈ chunksOf cs p, A.encode c ≠ [])
    (hA : ∀ c, A.decode (A.encode c) = .ok c)
    (hdata : st.data = compressObject A algoId cs p)
    (hidx : st.index = (compressIndexN A cs p).map toRec)
    (halgo : st.algo = some A)
    (hraw : st.rawSeekOffset = ((zipAt A (chunksOf cs p) j : Nat) : Int))
    (hj : j < (chunksOf cs p).length) :
    st.readZipChunk =
      (.ok ((chunksOf cs p).getD j []),
       { st with chunkData := (chunksOf cs p).getD j [], chunkOff := 0,
                 pos := ((zipAt A (chunksOf cs p) (j + 1) : Nat) : Int),
                 rawSeekOffset := ((zipAt A (chunksOf cs p) (j + 1) : Nat) : Int),
                 zipSeekOffset := ((rawAt (chunksOf cs p) j : Nat) : Int),
                 isInitialRead := false }) := by
  have hencj : A.encode ((chunksOf cs p).getD j []) ≠ [] :=
    henc _ (getD_mem_of_lt hj [])
  have hlenpos : 0 < (A.encode ((chunksOf cs p).getD j [])).length :=
    List.length_pos.mpr hencj
  have hbound : zipAt A (chunksOf cs p) j +
      (A.encode ((chunksOf cs p).getD j [])).length ≤
      (compressObject A algoId cs p).length := by
    rw [← zipAt_succ A (chunksOf cs p) j hj]
    have h1 : zipAt A (chunksOf cs p) (j + 1) ≤
        zipAt A (chunksOf cs p) (chunksOf cs p).length :=
      zipAt_mono A (chunksOf cs p) (j + 1) _ (by omega)
    have h2 := zipAt_top A (chunksOf cs p)
    have h3 := length_compressObject A algoId cs p
    have h4 : ((chunksOf cs p).map A.encode).flatten.length = (objBody A cs p).length := rfl
    rw [show headerSize = 12 from rfl] at h2
    omega
  unfold RState.readZipChunk
  dsimp only
  rw [fixZipChunk_mid A algoId cs p { st with chunkData := [], chunkOff := 0 } j
    hcs hp henc (by exact hdata) (by exact hidx) (by exact hraw) hj]
  dsimp only
  rw [copyNRaw_spec _ (zipAt A (chunksOf cs p) j)
    (A.encode ((chunksOf cs p).getD j [])).length rfl hlenpos
    (by dsimp only; rw [hdata]; exact hbound)]
  dsimp only
  rw [show ({ st with chunkData := ([] : List Nat), chunkOff := (0 : Int) } : RState).data =
    compressObject A algoId cs p from hdata]
  rw [obj_slice_chunk A algoId cs p j hj]
  rw [show ({ st with chunkData := ([] : List Nat), chunkOff := (0 : Int) } : RState).algo =
    some A from halgo]
  dsimp only
  rw [hA ((chunksOf cs p).getD j [])]
  dsimp only
  rw [show zipAt A (chunksOf cs p) j +
      (A.encode ((chunksOf cs p).getD j [])).length =
      zipAt A (chunksOf cs p) (j + 1) from (zipAt_succ A (chunksOf cs p) j hj).symm]

theorem readZipChunk_eof (st : RState) (lst : Record)
    (hlast : st.index.getLast? = some lst)
    (hall : ∀ r ∈ st.index, r.zipOff ≤ st.rawSeekOffset) :
    st.readZipChunk = (.error .eof, { st with chunkData := [], chunkOff := 0 }) := by
  unfold RState.readZipChunk RState.fixZipChunk
  dsimp only
  rw [chunkLookup_last { st with chunkData := [], chunkOff := 0 }
    st.rawSeekOffset false lst (by exact hlast)
    (fun r hr => by rw [recKey_false]; exact hall r hr)]
  dsimp only
  rw [if_pos (sub_self lst.zipOff)]

/-! ## Seeking to or beyond the end of the plaintext -/

theorem pIdx_getLast_all (A : Algorithm) (cs : Nat) (p : List Nat) (hcs : 1 ≤ cs) :
    ((compressIndexN A cs p).map toRec).getLast? =
      some { rawOff := ((rawAt (chunksOf cs p) (chunksOf cs p).length : Nat) : Int),
             zipOff := ((zipAt A (chunksOf cs p) (chunksOf cs p).length : Nat) : Int) } := by
  by_cases hp : p = []
  · subst hp
    rw [compressIndexN_empty]
    rfl
  · exact pIdx_getLast A cs p (chunksOf_ne_nil cs hcs p hp)

/-- compressSeekStart with a destination at or beyond the plaintext
length: the destination chunk lookup returns the end sentinel twice,
reloading the chunk buffer hits the zero-size end chunk (io.EOF, which
Seek tolerates), and the Seek succeeds returning the requested offset,
leaving the compressed cursor at the end of the compressed body and the
plaintext cursor at the requested (possibly out of range) offset. -/
theorem compressSeekStart_beyond (A : Algorithm) (algoId cs : Nat) (p : List Nat)
    (algos : Nat → Option Algorithm) (st : RState) (hcs : 1 ≤ cs)
    (hparse : st.parseTrailerIfNeeded = (.ok (), parsedState A algoId cs p algos))
    (t : Int) (ht : (p.length : Int) ≤ t) :
    st.compressSeekStart t =
      (.ok t,
       { parsedState A algoId cs p algos with
           rawSeekOffset := ((zipAt A (chunksOf cs p) (chunksOf cs p).length : Nat) : Int),
           zipSeekOffset := t }) := by
  have ht0 : (0 : Int) ≤ t := le_trans (Int.natCast_nonneg _) ht
  have hrawtop : rawAt (chunksOf cs p) (chunksOf cs p).length = p.length := by
    rw [rawAt_top, chunksOf_flatten cs hcs p]
  have hlast : (parsedState A algoId cs p algos).index.getLast? =
      some { rawOff := (p.length : Int),
             zipOff := ((zipAt A (chunksOf cs p) (chunksOf cs p).length : Nat) : Int) } := by
    rw [← hrawtop]
    exact pIdx_getLast_all A cs p hcs
  have h2 : 2 ≤ (parsedState A algoId cs p algos).index.length := by
    show 2 ≤ ((compressIndexN A cs p).map toRec).length
    rw [List.length_map]
    exact two_le_length_compressIndexN A cs p hcs
  unfold RState.compressSeekStart
  rw [hparse]
  dsimp only
  rw [if_neg (by omega : ¬ t < 0)]
  rw [chunkLookup_last (parsedState A algoId cs p algos) t true _ hlast
    (fun r hr => pIdx_raw_le A cs p hcs t ht r hr)]
  dsimp only
  obtain ⟨⟨currRec, currRec2⟩, hpr⟩ := chunkLookup_isOk
    (parsedState A algoId cs p algos) (parsedState A algoId cs p algos).zipSeekOffset true h2
  rw [hpr]
  dsimp only
  rw [if_pos (Or.inr (show
    ({ parsedState A algoId cs p algos with
        rawSeekOffset := ((zipAt A (chunksOf cs p) (chunksOf cs p).length : Nat) : Int),
        zipSeekOffset := t } : RState).isInitialRead = false from rfl))]
  rw [readZipChunk_eof
    { parsedState A algoId cs p algos with
        rawSeekOffset := ((zipAt A (chunksOf cs p) (chunksOf cs p).length : Nat) : Int),
        zipSeekOffset := t }
    { rawOff := (p.length : Int),
      zipOff := ((zipAt A (chunksOf cs p) (chunksOf cs p).length : Nat) : Int) }
    (by exact hlast)
    (fun r hr => by
      rw [← recKey_false]
      exact pIdx_zip_le_end A cs p hcs r hr)]
  dsimp only
  rw [if_pos rfl]
  dsimp only
  rw [show min (t - (p.length : Int)) ((([] : List Nat).length : Nat) : Int) = 0 from by
    rw [show ((([] : List Nat).length : Nat) : Int) = 0 from rfl]
    exact min_eq_right (by omega)]
  rfl

theorem readLoop_eof_step (st : RState) (fuel req : Nat) (acc : List Nat) (lst : Record)
    (hcd : st.chunkData = []) (hco : st.chunkOff = 0) (hreq : req ≠ 0)
    (hlast : st.index.getLast? = some lst)
    (hall : ∀ r ∈ st.index, r.zipOff ≤ st.rawSeekOffset) :
    RState.readLoop (fuel + 1) st req acc =
      (acc, some .eof, { st with chunkData := [], chunkOff := 0 }) := by
  have hbl : st.chunkBufLen = 0 := by
    unfold RState.chunkBufLen
    rw [hcd, hco]
    rfl
  unfold RState.readLoop
  dsimp only
  rw [if_neg (show ¬st.chunkBufLen ≠ 0 from by rw [hbl]; simp)]
  rw [if_neg hreq]
  rw [readZipChunk_eof st lst hlast hall]

/-! ## The read loop consumes the remaining chunks -/

theorem readLoop_loaded (A : Algorithm) (algoId cs : Nat) (p : List Nat)
    (hcs : 1 ≤ cs) (hp : p ≠ [])
    (henc : ∀ c ∈ chunksOf cs p, A.encode c ≠ [])
    (hA : ∀ c, A.decode (A.encode c) = .ok c) :
    ∀ d j (st : RState) (acc : List Nat) (req fuel : Nat),
      j < (chunksOf cs p).length →
      (chunksOf cs p).length - j ≤ d →
      st.data = compressObject A algoId cs p →
      st.index = (compressIndexN A cs p).map toRec →
      st.algo = some A →
      st.chunkData = (chunksOf cs p).getD j [] →
      st.chunkOff = 0 →
      st.rawSeekOffset = ((zipAt A (chunksOf cs p) (j + 1) : Nat) : Int) →
      ((chunksOf cs p).drop j).flatten.length < req →
      (chunksOf cs p).length - j ≤ fuel →
      (RState.readLoop fuel st req acc).1 = acc ++ ((chunksOf cs p).drop j).flatten ∧
      (RState.readLoop fuel st req acc).2.1 = some .eof := by
  intro d
  induction d with
  | zero =>
    intro j st acc req fuel hj hd
    omega
  | succ d ih =>
    intro j st acc req fuel hj hd hdata hidx halgo hcd hco hraw hreq hfuel
    have hchne : (chunksOf cs p).getD j [] ≠ [] :=
      (chunksOf_mem cs hcs p _ (getD_mem_of_lt hj [])).1
    have hclen : 0 < ((chunksOf cs p).getD j []).length := List.length_pos.mpr hchne
    have hdropsplit : ((chunksOf cs p).drop j).flatten =
        (chunksOf cs p).getD j [] ++ ((chunksOf cs p).drop (j + 1)).flatten := by
      rw [List.drop_eq_getElem_cons hj, List.flatten_cons]
      congr 1
      rw [List.getD_eq_getElem?_getD, List.getElem?_eq_getElem hj]
      rfl
    have hreqlen : ((chunksOf cs p).getD j []).length ≤
        ((chunksOf cs p).drop j).flatten.length := by
      rw [hdropsplit, List.length_append]
      omega
    have hbl : st.chunkBufLen = ((((chunksOf cs p).getD j []).length : Nat) : Int) := by
      unfold RState.chunkBufLen
      rw [hcd, hco, sub_zero]
    have hmin : min req st.chunkBufLen.toNat = ((chunksOf cs p).getD j []).length := by
      rw [hbl, Int.toNat_natCast]
      exact min_eq_right (by omega)
    have hslice : (st.chunkData.drop st.chunkOff.toNat).take
        ((chunksOf cs p).getD j []).length = (chunksOf cs p).getD j [] := by
      rw [hcd, hco]
      rw [show ((0 : Int)).toNat = 0 from rfl, List.drop_zero, List.take_length]
    cases fuel with
    | zero => omega
    | succ f =>
      unfold RState.readLoop
      dsimp only
      rw [if_pos (show st.chunkBufLen ≠ 0 from by rw [hbl]; omega)]
      rw [hmin, hslice]
      dsimp only
      rw [if_neg (show ¬(req - ((chunksOf cs p).getD j []).length = 0) from by omega)]
      by_cases hjn : j + 1 < (chunksOf cs p).length
      · rw [readZipChunk_mid A algoId cs p
          { st with
              chunkOff := st.chunkOff + ((((chunksOf cs p).getD j []).length : Nat) : Int),
              zipSeekOffset :=
                st.zipSeekOffset + ((((chunksOf cs p).getD j []).length : Nat) : Int) }
          (j + 1) hcs hp henc hA (by exact hdata) (by exact hidx) (by exact halgo)
          (by exact hraw) hjn]
        dsimp only
        have hrec := ih (j + 1)
          { st with
              chunkData := (chunksOf cs p).getD (j + 1) [],
              chunkOff := 0,
              pos := ((zipAt A (chunksOf cs p) (j + 1 + 1) : Nat) : Int),
              rawSeekOffset := ((zipAt A (chunksOf cs p) (j + 1 + 1) : Nat) : Int),
              zipSeekOffset := ((rawAt (chunksOf cs p) (j + 1) : Nat) : Int),
              isInitialRead := false }
          (acc ++ (chunksOf cs p).getD j [])
          (req - ((chunksOf cs p).getD j []).length) f hjn (by omega)
          (by exact hdata) (by exact hidx) (by exact halgo) rfl rfl rfl
          (by rw [hdropsplit, List.length_append] at hreq; omega)
          (by omega)
        rw [hrec.1, hrec.2, hdropsplit, List.append_assoc]
        exact ⟨rfl, rfl⟩
      · have hjeq : j + 1 = (chunksOf cs p).length := by omega
        have hne2 : chunksOf cs p ≠ [] := chunksOf_ne_nil cs hcs p hp
        rw [readZipChunk_eof
          { st with
              chunkOff := st.chunkOff + ((((chunksOf cs p).getD j []).length : Nat) : Int),
              zipSeekOffset :=
                st.zipSeekOffset + ((((chunksOf cs p).getD j []).length : Nat) : Int) }
          { rawOff := ((rawAt (chunksOf cs p) (chunksOf cs p).length : Nat) : Int),
            zipOff := ((zipAt A (chunksOf cs p) (chunksOf cs p).length : Nat) : Int) }
          (by
            show st.index.getLast? = _
            rw [hidx]
            exact pIdx_getLast A cs p hne2)
          (by
            show ∀ r ∈ st.index, r.zipOff ≤ st.rawSeekOffset
            rw [hidx, hraw, hjeq]
            intro r hr
            have := pIdx_zip_le_end A cs p hcs r hr
            rw [recKey_false] at this
            exact this)]
        dsimp only
        constructor
        · rw [hdropsplit,
            show (chunksOf cs p).drop (j + 1) = [] from
              List.drop_eq_nil_of_le (by omega),
            List.flatten_nil, List.append_nil]
        · rfl

theorem readLoop_empty_buf (A : Algorithm) (algoId cs : Nat) (p : List Nat)
    (hcs : 1 ≤ cs) (hp : p ≠ [])
    (henc : ∀ c ∈ chunksOf cs p, A.encode c ≠ [])
    (hA : ∀ c, A.decode (A.encode c) = .ok c)
    (j : Nat) (st : RState) (acc : List Nat) (req fuel : Nat)
    (hj : j ≤ (chunksOf cs p).length)
    (hdata : st.data = compressObject A algoId cs p)
    (hidx : st.index = (compressIndexN A cs p).map toRec)
    (halgo : st.algo = some A)
    (hcd : st.chunkData = [])
    (hco : st.chunkOff = 0)
    (hraw : st.rawSeekOffset = ((zipAt A (chunksOf cs p) j : Nat) : Int))
    (hreq : ((chunksOf cs p).drop j).flatten.length < req)
    (hfuel : (chunksOf cs p).length - j + 1 ≤ fuel) :
    (RState.readLoop fuel st req acc).1 = acc ++ ((chunksOf cs p).drop j).flatten ∧
    (RState.readLoop fuel st req acc).2.1 = some .eof := by
  have hbl : st.chunkBufLen = 0 := by
    unfold RState.chunkBufLen
    rw [hcd, hco]
    rfl
  cases fuel with
  | zero => omega
  | succ f =>
    unfold RState.readLoop
    dsimp only
    rw [if_neg (show ¬st.chunkBufLen ≠ 0 from by rw [hbl]; simp)]
    rw [if_neg (show ¬(req = 0) from by omega)]
    by_cases hjn : j < (chunksOf cs p).length
    · rw [readZipChunk_mid A algoId cs p st j hcs hp henc hA hdata hidx halgo
        hraw hjn]
      dsimp only
      have hrec := readLoop_loaded A algoId cs p hcs hp henc hA
        ((chunksOf cs p).length - j) j
        { st with
            chunkData := (chunksOf cs p).getD j [],
            chunkOff := 0,
            pos := ((zipAt A (chunksOf cs p) (j + 1) : Nat) : Int),
            rawSeekOffset := ((zipAt A (chunksOf cs p) (j + 1) : Nat) : Int),
            zipSeekOffset := ((rawAt (chunksOf cs p) j : Nat) : Int),
            isInitialRead := false }
        acc req f hjn (by omega)
        (by exact hdata) (by exact hidx) (by exact halgo) rfl rfl rfl
        hreq (by omega)
      exact hrec
    · have hjeq : j = (chunksOf cs p).length := by omega
      have hne2 : chunksOf cs p ≠ [] := chunksOf_ne_nil cs hcs p hp
      rw [readZipChunk_eof st
        { rawOff := ((rawAt (chunksOf cs p) (chunksOf cs p).length : Nat) : Int),
          zipOff := ((zipAt A (chunksOf cs p) (chunksOf cs p).length : Nat) : Int) }
        (by rw [hidx]; exact pIdx_getLast A cs p hne2)
        (by
          rw [hidx, hraw, hjeq]
          intro r hr
          have := pIdx_zip_le_end A cs p hcs r hr
          rw [recKey_false] at this
          exact this)]
      dsimp only
      rw [show (chunksOf cs p).drop j = [] from List.drop_eq_nil_of_le (by omega),
        List.flatten_nil, List.append_nil]
      exact ⟨rfl, rfl⟩

/-- C1: compression round trip.  For every plaintext (including the
empty one) and every lossless algorithm in the table, reading the
writer-produced object through the decompression Reader with one Read
call whose destination exceeds the plaintext length yields exactly the
plaintext followed by io.EOF; the object for empty input parses with
the two sentinel index records in place. -/
theorem C1_compress_roundtrip (A : Algorithm) (algoId cs : Nat) (p : List Nat)
    (algos : Nat → Option Algorithm)
    (hA : ∀ c, A.decode (A.encode c) = .ok c)
    (hne : ∀ c, c ≠ [] → A.encode c ≠ [])
    (halgos : algos algoId = some A)
    (hid : algoId < 256) (hcs : 1 ≤ cs)
    (hp : p.length < 2 ^ 63)
    (hL : (compressObject A algoId cs p).length < 2 ^ 63) :
    ((mkReader (compressObject A algoId cs p) algos).compressRead (p.length + 1)).1 = p ∧
    ((mkReader (compressObject A algoId cs p) algos).compressRead (p.length + 1)).2.1 =
      some .eof ∧
    ((mkReader (compressObject A algoId cs []) algos).parseTrailerIfNeeded).2.index.length = 2 := by
  have hLe : (compressObject A algoId cs []).length < 2 ^ 63 := by
    rw [length_compressObject,
      show (objBody A cs []).length = 0 from rfl,
      show (compressIndexN A cs []).length = 2 from rfl]
    decide
  have hempty :
      ((mkReader (compressObject A algoId cs []) algos).parseTrailerIfNeeded).2.index.length = 2 := by
    rw [parse_compressObject A algoId cs [] algos halgos hid hcs (by decide) hLe]
    rfl
  refine ⟨?_, ?_, hempty⟩ <;>
  · unfold RState.compressRead
    rw [parse_compressObject A algoId cs p algos halgos hid hcs hp hL]
    dsimp only
    by_cases hpnil : p = []
    · subst hpnil
      with_unfolding_all rfl
    · have henc : ∀ c ∈ chunksOf cs p, A.encode c ≠ [] := fun c hc =>
        hne c (chunksOf_mem cs hcs p c hc).1
      have hlenidx : (parsedState A algoId cs p algos).index.length =
          (chunksOf cs p).length + 1 := pIdx_length A cs p (chunksOf_ne_nil cs hcs p hpnil)
      have hflat : ((chunksOf cs p).drop 0).flatten = p := by
        rw [List.drop_zero, chunksOf_flatten cs hcs p]
      have hrun := readLoop_empty_buf A algoId cs p hcs hpnil henc hA 0
        (parsedState A algoId cs p algos) [] (p.length + 1)
        ((parsedState A algoId cs p algos).index.length + 2)
        (by omega) rfl rfl rfl rfl rfl rfl
        (by rw [hflat]; omega) (by rw [hlenidx]; omega)
      rw [hflat] at hrun
      simp only [List.nil_append] at hrun
      first
      | exact hrun.1
      | exact hrun.2

/-- Witness for C1 at the identity algorithm, chunk size 2 and
plaintext [7, 8, 9]. -/
theorem C1_compress_roundtrip_witness :
    ((mkReader (compressObject idAlg 0 2 [7, 8, 9]) idAlgos).compressRead
      ([7, 8, 9].length + 1)).1 = [7, 8, 9] ∧
    ((mkReader (compressObject idAlg 0 2 [7, 8, 9]) idAlgos).compressRead
      ([7, 8, 9].length + 1)).2.1 = some .eof ∧
    ((mkReader (compressObject idAlg 0 2 []) idAlgos).parseTrailerIfNeeded).2.index.length = 2 :=
  C1_compress_roundtrip idAlg 0 2 [7, 8, 9] idAlgos (fun _ => rfl) (fun _ h => h)
    rfl (by decide) (by decide) (by decide) (by with_unfolding_all decide)

/-- C7: size agreement.  On a writer-produced object, Seek(0, SeekEnd)
succeeds and returns the plaintext length, which is exactly the rawOff
of the last index record. -/
theorem C7_seek_end_size (A : Algorithm) (algoId cs : Nat) (p : List Nat)
    (algos : Nat → Option Algorithm)
    (halgos : algos algoId = some A) (hid : algoId < 256) (hcs : 1 ≤ cs)
    (hp : p.length < 2 ^ 63)
    (hL : (compressObject A algoId cs p).length < 2 ^ 63) :
    ((mkReader (compressObject A algoId cs p) algos).compressSeek 0 .seekEnd).1 =
      .ok (p.length : Int) ∧
    ((mkReader (compressObject A algoId cs p) algos).parseTrailerIfNeeded).2.index.getLast?.map
      Record.rawOff = some (p.length : Int) := by
  have hrawtop : rawAt (chunksOf cs p) (chunksOf cs p).length = p.length := by
    rw [rawAt_top, chunksOf_flatten cs hcs p]
  have hlast : (parsedState A algoId cs p algos).index.getLast? =
      some { rawOff := (p.length : Int),
             zipOff := ((zipAt A (chunksOf cs p) (chunksOf cs p).length : Nat) : Int) } := by
    rw [← hrawtop]
    exact pIdx_getLast_all A cs p hcs
  constructor
  · unfold RState.compressSeek
    dsimp only
    rw [if_neg (lt_irrefl (0 : Int))]
    rw [parse_compressObject A algoId cs p algos halgos hid hcs hp hL]
    dsimp only
    rw [hlast]
    dsimp only
    rw [add_zero]
    rw [compressSeekStart_beyond A algoId cs p algos (parsedState A algoId cs p algos) hcs
      (parse_of_parsed _ rfl) (p.length : Int) le_rfl]
  · rw [parse_compressObject A algoId cs p algos halgos hid hcs hp hL]
    dsimp only
    rw [hlast]
    rfl

/-- Witness for C7 at the identity algorithm, chunk size 2 and
plaintext [7, 8, 9]. -/
theorem C7_seek_end_size_witness :
    ((mkReader (compressObject idAlg 0 2 [7, 8, 9]) idAlgos).compressSeek 0 .seekEnd).1 =
      .ok (([7, 8, 9] : List Nat).length : Int) ∧
    ((mkReader (compressObject idAlg 0 2 [7, 8, 9]) idAlgos).parseTrailerIfNeeded).2.index.getLast?.map
      Record.rawOff = some ((([7, 8, 9] : List Nat).length : Nat) : Int) :=
  C7_seek_end_size idAlg 0 2 [7, 8, 9] idAlgos rfl (by decide) (by decide) (by decide)
    (by with_unfolding_all decide)

/-- C2: seeking to or beyond the plaintext length.  SeekStart to
len(p) + k succeeds and returns the requested offset (the stored
plaintext cursor is the requested offset itself, not clamped to the
end), and the next Read returns zero bytes with io.EOF; but the
SeekEnd branch rejects every positive offset with io.EOF instead of
succeeding, so a seek beyond the end through SeekEnd fails. -/
theorem C2_seek_beyond_end (A : Algorithm) (algoId cs : Nat) (p : List Nat)
    (algos : Nat → Option Algorithm)
    (halgos : algos algoId = some A) (hid : algoId < 256) (hcs : 1 ≤ cs)
    (hp : p.length < 2 ^ 63)
    (hL : (compressObject A algoId cs p).length < 2 ^ 63) (k : Nat) :
    ((mkReader (compressObject A algoId cs p) algos).compressSeek
        ((p.length + k : Nat) : Int) .start).1 = .ok ((p.length + k : Nat) : Int) ∧
    (((mkReader (compressObject A algoId cs p) algos).compressSeek
        ((p.length + k : Nat) : Int) .start).2.compressRead 1).1 = [] ∧
    (((mkReader (compressObject A algoId cs p) algos).compressSeek
        ((p.length + k : Nat) : Int) .start).2.compressRead 1).2.1 = some .eof ∧
    ∀ d : Int, 0 < d →
      (mkReader (compressObject A algoId cs p) algos).compressSeek d .seekEnd =
        (.error .eof, mkReader (compressObject A algoId cs p) algos) := by
  have ht : (p.length : Int) ≤ ((p.length + k : Nat) : Int) := by
    push_cast
    omega
  have hrawtop : rawAt (chunksOf cs p) (chunksOf cs p).length = p.length := by
    rw [rawAt_top, chunksOf_flatten cs hcs p]
  have hseek : (mkReader (compressObject A algoId cs p) algos).compressSeek
      ((p.length + k : Nat) : Int) .start =
      (.ok ((p.length + k : Nat) : Int),
       { parsedState A algoId cs p algos with
           rawSeekOffset := ((zipAt A (chunksOf cs p) (chunksOf cs p).length : Nat) : Int),
           zipSeekOffset := ((p.length + k : Nat) : Int) }) := by
    show (mkReader (compressObject A algoId cs p) algos).compressSeekStart
        ((p.length + k : Nat) : Int) = _
    exact compressSeekStart_beyond A algoId cs p algos _ hcs
      (parse_compressObject A algoId cs p algos halgos hid hcs hp hL) _ ht
  have hlast2 : ({ parsedState A algoId cs p algos with
      rawSeekOffset := ((zipAt A (chunksOf cs p) (chunksOf cs p).length : Nat) : Int),
      zipSeekOffset := ((p.length + k : Nat) : Int) } : RState).index.getLast? =
      some { rawOff := (p.length : Int),
             zipOff := ((zipAt A (chunksOf cs p) (chunksOf cs p).length : Nat) : Int) } := by
    show ((compressIndexN A cs p).map toRec).getLast? = _
    rw [← hrawtop]
    exact pIdx_getLast_all A cs p hcs
  have hread : (({ parsedState A algoId cs p algos with
      rawSeekOffset := ((zipAt A (chunksOf cs p) (chunksOf cs p).length : Nat) : Int),
      zipSeekOffset := ((p.length + k : Nat) : Int) } : RState).compressRead 1) =
      ([], some .eof,
       { ({ parsedState A algoId cs p algos with
            rawSeekOffset := ((zipAt A (chunksOf cs p) (chunksOf cs p).length : Nat) : Int),
            zipSeekOffset := ((p.length + k : Nat) : Int) } : RState) with
          chunkData := [], chunkOff := 0 }) := by
    unfold RState.compressRead
    rw [parse_of_parsed _ rfl]
    dsimp only
    exact readLoop_eof_step _
      (({ parsedState A algoId cs p algos with
          rawSeekOffset := ((zipAt A (chunksOf cs p) (chunksOf cs p).length : Nat) : Int),
          zipSeekOffset := ((p.length + k : Nat) : Int) } : RState).index.length + 1)
      1 [] _ rfl rfl (by omega) hlast2
      (fun r hr => by
        rw [← recKey_false]
        exact pIdx_zip_le_end A cs p hcs r hr)
  refine ⟨?_, ?_, ?_, ?_⟩
  · rw [hseek]
  · rw [hseek]
    dsimp only
    rw [hread]
  · rw [hseek]
    dsimp only
    rw [hread]
  · intro d hd
    unfold RState.compressSeek
    dsimp only
    rw [if_pos hd]

/-- Witness for C2 at the identity algorithm, chunk size 2, plaintext
[7, 8, 9] and overshoot 5. -/
theorem C2_seek_beyond_end_witness :
    ((mkReader (compressObject idAlg 0 2 [7, 8, 9]) idAlgos).compressSeek
        ((([7, 8, 9] : List Nat).length + 5 : Nat) : Int) .start).1 =
      .ok ((([7, 8, 9] : List Nat).length + 5 : Nat) : Int) ∧
    (((mkReader (compressObject idAlg 0 2 [7, 8, 9]) idAlgos).compressSeek
        ((([7, 8, 9] : List Nat).length + 5 : Nat) : Int) .start).2.compressRead 1).1 = [] ∧
    (((mkReader (compressObject idAlg 0 2 [7, 8, 9]) idAlgos).compressSeek
        ((([7, 8, 9] : List Nat).length + 5 : Nat) : Int) .start).2.compressRead 1).2.1 =
      some .eof ∧
    ∀ d : Int, 0 < d →
      (mkReader (compressObject idAlg 0 2 [7, 8, 9]) idAlgos).compressSeek d .seekEnd =
        (.error .eof, mkReader (compressObject idAlg 0 2 [7, 8, 9]) idAlgos) :=
  C2_seek_beyond_end idAlg 0 2 [7, 8, 9] idAlgos rfl (by decide) (by decide) (by decide)
    (by with_unfolding_all decide) 5

/-- Counterexample to C2 as claimed for every whence: Seek(1, SeekEnd)
on a well-formed object does not succeed with the cursor at the end; it
fails immediately with io.EOF, before even parsing the trailer. -/
theorem C2_seek_end_positive_counterexample :
    (mkReader (compressObject idAlg 0 2 [7, 8, 9]) idAlgos).compressSeek 1 .seekEnd =
      (.error .eof, mkReader (compressObject idAlg 0 2 [7, 8, 9]) idAlgos) := by
  with_unfolding_all rfl

/-- C8: a Seek resolving to a negative plaintext offset fails and
leaves the reader state (in particular both cursors) unchanged, but
the error is io.EOF, the very value used for end of stream, not a
dedicated range error kind. -/
theorem C8_seek_negative (st : RState) (d : Int)
    (hparsed : st.trailerParsed = true) (hd : d < 0)
    (hd2 : st.zipSeekOffset + d < 0) :
    st.compressSeek d .start = (.error .eof, st) ∧
    st.compressSeek d .current = (.error .eof, st) := by
  constructor
  · show st.compressSeekStart d = _
    unfold RState.compressSeekStart
    rw [parse_of_parsed st hparsed]
    dsimp only
    rw [if_pos hd]
  · show st.compressSeekStart (st.zipSeekOffset + d) = _
    unfold RState.compressSeekStart
    rw [parse_of_parsed st hparsed]
    dsimp only
    rw [if_pos hd2]

/-- Witness for C8 on the parsed reader over the object for [7, 8, 9]
with offset -1. -/
theorem C8_seek_negative_witness :
    (parsedState idAlg 0 2 [7, 8, 9] idAlgos).compressSeek (-1) .start =
      (.error .eof, parsedState idAlg 0 2 [7, 8, 9] idAlgos) ∧
    (parsedState idAlg 0 2 [7, 8, 9] idAlgos).compressSeek (-1) .current =
      (.error .eof, parsedState idAlg 0 2 [7, 8, 9] idAlgos) :=
  C8_seek_negative (parsedState idAlg 0 2 [7, 8, 9] idAlgos) (-1) rfl (by decide)
    (by with_unfolding_all decide)

/-- Counterexample to C8 as claimed: the error returned for a negative
seek target is Err.eof, which is a different value from the dedicated
negative seek error kind Err.negativeSeek of the underlying seeker. -/
theorem C8_negative_seek_error_kind_counterexample :
    ((parsedState idAlg 0 2 [7, 8, 9] idAlgos).compressSeek (-1) .start).1 =
      .error .eof ∧ Err.eof ≠ Err.negativeSeek := by
  constructor
  · with_unfolding_all rfl
  · decide

/-- C3: far from rejecting a non-monotone index, the parser accepts
it: the loop compares every record against the never-advanced initial
record (-1, -1), so an object whose records go (0,12), (5,20), (3,25)
parses successfully and the opened reader holds an index that is not
strictly increasing in rawOff. -/
theorem C3_index_monotonicity_unchecked :
    ((mkReader badIndexObject idAlgos).parseTrailerIfNeeded).1 = .ok () ∧
    ((mkReader badIndexObject idAlgos).parseTrailerIfNeeded).2.index =
      [{ rawOff := 0, zipOff := 12 }, { rawOff := 5, zipOff := 20 },
       { rawOff := 3, zipOff := 25 }] ∧
    ¬ List.Pairwise (fun a b => a.rawOff < b.rawOff)
        ((mkReader badIndexObject idAlgos).parseTrailerIfNeeded).2.index := by
  refine ⟨by with_unfolding_all rfl, by with_unfolding_all rfl, ?_⟩
  rw [show ((mkReader badIndexObject idAlgos).parseTrailerIfNeeded).2.index =
      [{ rawOff := 0, zipOff := 12 }, { rawOff := 5, zipOff := 20 },
       { rawOff := 3, zipOff := 25 }] from by with_unfolding_all rfl]
  decide

end Brig
